import Mathlib

/-!
The puzzle video filter (modules/video_filter/puzzle.c).

A shallow embedding of the puzzle state (`vout_sys_t`), of `finished`, `shuffle`,
`Create`, `MouseEvent` and of the tile loop and selection highlight of `Render`,
followed by the properties proved about them.

Conventions of the embedding:
* C `int` values are `Int`.  The slot computation of `MouseEvent`, whose operands are
  the mouse coordinates and the frame size, is done in 32-bit two's complement
  (`wrap32`, `idiv`): there the products can leave the range of `int`.  The arithmetic
  of `finished`, `shuffle` and `Render` is on grid indices and plane offsets and is
  kept in unbounded `Int`; it is exact as long as `i_cols * i_rows` and
  `i_cols * i_pitch` fit an `int`.  So are the four sums of the adjacency test, exact
  unless `i_pos` is within `i_cols` of an end of the range of `int`.
* C `/` and `%` are `Int.tdiv` and `Int.tmod` (truncation toward zero); a zero
  divisor is a fault.
* Arrays are lists; an access outside the allocated object is a fault.
* `rand()` is a stream `Nat → Nat` together with the number of values already drawn.
* The loops of `shuffle` need not terminate; they carry a step budget and report
  `Fault.outOfFuel` when it is exhausted.
-/

namespace Puzzle

/-- Ways in which a run of the C code fails to produce a value. -/
inductive Fault where
  | outOfFuel
  | outOfBounds
  | divByZero
  deriving DecidableEq

deriving instance DecidableEq for Except

/-- Result of running a piece of the C code. -/
abbrev Run (α : Type) := Except Fault α

/-- The puzzle fields of `struct vout_sys_t` (the child vout and image handler are plumbing). -/
structure vout_sys_t where
  i_cols : Int
  i_rows : Int
  pi_order : List Int
  i_selected : Int
  b_finished : Bool
  b_blackslot : Bool
  deriving DecidableEq

/-- Array read `a[i]`. -/
def load {α : Type} [Inhabited α] (a : List α) (i : Int) : Run α :=
  if 0 ≤ i ∧ i < (a.length : Int) then .ok (a.getD i.toNat default) else .error .outOfBounds

/-- Array write `a[i] = v`. -/
def store {α : Type} (a : List α) (i : Int) (v : α) : Run (List α) :=
  if 0 ≤ i ∧ i < (a.length : Int) then .ok (a.set i.toNat v) else .error .outOfBounds

/-- C division `a / b`. -/
def cdiv (a b : Int) : Run Int :=
  if b = 0 then .error .divByZero else .ok (a.tdiv b)

/-- C remainder `a % b`. -/
def cmod (a b : Int) : Run Int :=
  if b = 0 then .error .divByZero else .ok (a.tmod b)

/-- The loop of `finished`: `k` iterations are left, the loop variable is `i`. -/
def finished.loop (order : List Int) : Nat → Int → Run Bool
  | 0, _ => .ok true
  | k + 1, i =>
    match load order i with
    | .error e => .error e
    | .ok v => if i ≠ v then .ok false else finished.loop order k (i + 1)

/-- `finished`: true iff `pi_order[i] == i` for `i` in `[0, i_cols * i_rows)`. -/
def finished (p_sys : vout_sys_t) : Run Bool :=
  finished.loop p_sys.pi_order (p_sys.i_cols * p_sys.i_rows).toNat 0

/-- The placing loop of `shuffle`, `for( c = 0; c < n; )`, drawing `rand() % n`
until every id `c` has found a free slot.  `seed` counts the values drawn so far. -/
def shuffle.place (rand : Nat → Nat) (n : Int) : Nat → List Int → Int → Nat → Run (List Int × Nat)
  | 0, order, c, seed => if c < n then .error .outOfFuel else .ok (order, seed)
  | fuel + 1, order, c, seed =>
    if c < n then
      match cmod (rand seed : Int) n with
      | .error e => .error e
      | .ok i =>
        match load order i with
        | .error e => .error e
        | .ok v =>
          if v = -1 then
            match store order i c with
            | .error e => .error e
            | .ok order1 => shuffle.place rand n fuel order1 (c + 1) (seed + 1)
          else shuffle.place rand n fuel order c (seed + 1)
    else .ok (order, seed)

/-- The `do ... while( b_finished )` loop of `shuffle`.  The array has just been
allocated with `n` entries; each pass first sets all of them to `-1`. -/
def shuffle.rounds (rand : Nat → Nat) (p_sys : vout_sys_t) : Nat → Nat → Run (vout_sys_t × Nat)
  | 0, _ => .error .outOfFuel
  | fuel + 1, seed =>
    let n := p_sys.i_cols * p_sys.i_rows
    match shuffle.place rand n fuel (List.replicate n.toNat (-1)) 0 seed with
    | .error e => .error e
    | .ok (order, seed1) =>
      let sys1 := { p_sys with pi_order := order }
      match finished sys1 with
      | .error e => .error e
      | .ok b =>
        let sys2 := { sys1 with b_finished := b }
        if b = true then shuffle.rounds rand p_sys fuel seed1 else .ok (sys2, seed1)

/-- The black-slot search loop of `shuffle`: the first `i` with `pi_order[i] == target`,
or the old `i_selected` when the loop ends without a hit. -/
def shuffle.hole (order : List Int) (target : Int) (sel : Int) : Nat → Int → Run Int
  | 0, _ => .ok sel
  | k + 1, i =>
    match load order i with
    | .error e => .error e
    | .ok v => if v = target then .ok i else shuffle.hole order target sel k (i + 1)

/-- `shuffle`. -/
def shuffle (rand : Nat → Nat) (fuel : Nat) (p_sys : vout_sys_t) (seed : Nat) :
    Run (vout_sys_t × Nat) :=
  match shuffle.rounds rand p_sys fuel seed with
  | .error e => .error e
  | .ok (sys1, seed1) =>
    if sys1.b_blackslot = true then
      match shuffle.hole sys1.pi_order ((sys1.i_cols - 1) * sys1.i_rows) sys1.i_selected
          (sys1.i_cols * sys1.i_rows).toNat 0 with
      | .error e => .error e
      | .ok sel => .ok ({ sys1 with i_selected := sel }, seed1)
    else .ok ({ sys1 with i_selected := -1 }, seed1)

/-- `Create`: reads the configuration and shuffles.  `sel0` and `fin0` are the
indeterminate contents of the freshly allocated structure. -/
def Create (rand : Nat → Nat) (fuel : Nat) (rows cols : Int) (blackslot : Bool)
    (sel0 : Int) (fin0 : Bool) (seed : Nat) : Run (vout_sys_t × Nat) :=
  shuffle rand fuel
    { i_cols := cols, i_rows := rows, pi_order := [], i_selected := sel0,
      b_finished := fin0, b_blackslot := blackslot } seed

/-- Which variable the mouse callback was fired for (`psz_var[6]`). -/
inductive mouse_var where
  | x
  | y
  | clicked
  deriving DecidableEq

/-- Largest value of a C `int` (32 bits). -/
def INT_MAX : Int := 2147483647

/-- Smallest value of a C `int` (32 bits). -/
def INT_MIN : Int := -2147483648

/-- The `int` a 32-bit two's complement machine computes for an operation on `int`s
whose mathematical result is `x`. -/
def wrap32 (x : Int) : Int := (x + 2147483648) % 4294967296 - 2147483648

/-- Division of two `int`s on a 32-bit machine: truncation toward zero; a zero divisor,
and `INT_MIN / -1`, raise the divide error. -/
def idiv (a b : Int) : Run Int :=
  if b = 0 then .error .divByZero
  else if a = INT_MIN ∧ b = -1 then .error .divByZero
  else .ok (a.tdiv b)

/-- The clicked slot computed by `MouseEvent`:
`i_cols * ( ( i_rows * i_y ) / v_h ) + ( i_cols * i_x ) / v_w`, every product and the
sum taken in 32-bit `int` arithmetic. -/
def i_pos (p_sys : vout_sys_t) (i_x i_y v_w v_h : Int) : Run Int :=
  match idiv (wrap32 (p_sys.i_rows * i_y)) v_h with
  | .error e => .error e
  | .ok r =>
    match idiv (wrap32 (p_sys.i_cols * i_x)) v_w with
    | .error e => .error e
    | .ok c => .ok (wrap32 (wrap32 (p_sys.i_cols * r) + c))

/-- The exchange `pi_order[i_selected] <-> pi_order[i_pos]` of `MouseEvent`. -/
def exchange (order : List Int) (sel pos : Int) : Run (List Int) :=
  match load order sel with
  | .error e => .error e
  | .ok a =>
    match load order pos with
    | .error e => .error e
    | .ok b =>
      match store order sel b with
      | .error e => .error e
      | .ok order1 => store order1 pos a

/-- The adjacency test of `MouseEvent`: `i_selected` is `i_pos + 1`, `i_pos - 1`,
`i_pos + i_cols` or `i_pos - i_cols`. -/
def adjacent (p_sys : vout_sys_t) (pos : Int) : Prop :=
  p_sys.i_selected = pos + 1 ∨ p_sys.i_selected = pos - 1
    ∨ p_sys.i_selected = pos + p_sys.i_cols ∨ p_sys.i_selected = pos - p_sys.i_cols

instance (p_sys : vout_sys_t) (pos : Int) : Decidable (adjacent p_sys pos) := by
  unfold adjacent; infer_instance

/-- `MouseEvent`, on the puzzle state and the position in the random stream. -/
def MouseEvent (rand : Nat → Nat) (fuel : Nat) (w : vout_sys_t × Nat) (psz_var : mouse_var)
    (i_x i_y v_w v_h : Int) : Run (vout_sys_t × Nat) :=
  let p_sys := w.1
  if psz_var = mouse_var.clicked then
    match i_pos p_sys i_x i_y v_w v_h with
    | .error e => .error e
    | .ok pos =>
      if p_sys.b_finished = true then shuffle rand fuel p_sys w.2
      else if p_sys.i_selected = -1 then .ok ({ p_sys with i_selected := pos }, w.2)
      else if p_sys.i_selected = pos ∧ p_sys.b_blackslot = false then
        .ok ({ p_sys with i_selected := -1 }, w.2)
      else if adjacent p_sys pos then
        match exchange p_sys.pi_order p_sys.i_selected pos with
        | .error e => .error e
        | .ok order =>
          let sys1 := { p_sys with
            pi_order := order, i_selected := if p_sys.b_blackslot = true then pos else -1 }
          match finished sys1 with
          | .error e => .error e
          | .ok b => .ok ({ sys1 with b_finished := b }, w.2)
      else .ok w
  else .ok w

/-- States the filter can be in: the result of `Create`, followed by any finite
sequence of mouse events whose coordinates lie inside the frame and for which the
products `rows * i_y` and `cols * i_x` of the slot computation fit an `int` (as they do
on every frame with `rows * height` and `cols * width` at most `INT_MAX`). -/
inductive Reachable (rand : Nat → Nat) (rows cols : Int) (blackslot : Bool) :
    vout_sys_t × Nat → Prop
  | create (fuel seed : Nat) (sel0 : Int) (fin0 : Bool) (w : vout_sys_t × Nat) :
      Create rand fuel rows cols blackslot sel0 fin0 seed = .ok w →
      Reachable rand rows cols blackslot w
  | click (fuel : Nat) (w w' : vout_sys_t × Nat) (psz_var : mouse_var) (i_x i_y v_w v_h : Int) :
      Reachable rand rows cols blackslot w →
      0 ≤ i_x → i_x < v_w → 0 ≤ i_y → i_y < v_h →
      rows * i_y ≤ INT_MAX → cols * i_x ≤ INT_MAX →
      MouseEvent rand fuel w psz_var i_x i_y v_w v_h = .ok w' →
      Reachable rand rows cols blackslot w'

/-- A small random stream for concrete runs: 1, 0, 1, 1, 0, 3, 2, 1, 0, 2, 3, then `k % 7`. -/
def demoRand : Nat → Nat := fun k => [1, 0, 1, 1, 0, 3, 2, 1, 0, 2, 3].getD k (k % 7)

/-- The order holds every value of `[0, n)` exactly once. -/
def IsPermutation (n : Int) (l : List Int) : Prop :=
  l.Perm ((List.range n.toNat).map Int.ofNat)

instance (n : Int) (l : List Int) : Decidable (IsPermutation n l) := by
  unfold IsPermutation; infer_instance

/-- Invariant of the placing loop: the ids `0 .. c-1` have all been placed. -/
structure PlaceInv (n : Int) (order : List Int) (c : Int) : Prop where
  len : (order.length : Int) = n
  c0 : 0 ≤ c
  cn : c ≤ n
  occ : ∀ v : Int, 0 ≤ v → v < c → v ∈ order

/-- What holds of the puzzle state whenever the filter is running. -/
structure Valid (rows cols : Int) (blackslot : Bool) (s : vout_sys_t) : Prop where
  rows_eq : s.i_rows = rows
  cols_eq : s.i_cols = cols
  bs_eq : s.b_blackslot = blackslot
  perm : IsPermutation (cols * rows) s.pi_order
  coherent : finished s = .ok s.b_finished
  sel : s.i_selected = -1 ∨ (0 ≤ s.i_selected ∧ s.i_selected < cols * rows)
  hole : blackslot = true → load s.pi_order s.i_selected = .ok ((cols - 1) * rows)

/-- A 4x4 order used in the concrete runs: the identity with slots 0 and 1 exchanged. -/
def demoOrder16 : List Int := [1, 0, 2, 3, 4, 5, 6, 7, 8, 9, 10, 11, 12, 13, 14, 15]

/-! Render: the tile loop and the selection highlight. -/

/-- A picture plane (`plane_t`): `p_pixels` holds `i_pitch * i_lines` bytes. -/
structure plane_t where
  p_pixels : List Nat
  i_pitch : Int
  i_lines : Int
  deriving DecidableEq, Inhabited

/-- The pixel memory of one destination plane, together with the log of the byte
offsets stored to so far (most recent first). -/
structure out_plane where
  p_pixels : List Nat
  stores : List Int
  deriving DecidableEq, Inhabited

/-- Index of the luma plane. -/
def Y_PLANE : Nat := 0

/-- One byte store `p_pixels[off] = v`. -/
def poke (out : out_plane) (off : Int) (v : Nat) : Run out_plane :=
  match store out.p_pixels off v with
  | .error e => .error e
  | .ok px => .ok { p_pixels := px, stores := off :: out.stores }

/-- The byte loop of `memset`: `k` bytes are left, the next goes to `off`. -/
def memset.loop (c : Nat) : Nat → Int → out_plane → Run out_plane
  | 0, _, out => .ok out
  | k + 1, off, out =>
    match poke out off c with
    | .error e => .error e
    | .ok out1 => memset.loop c k (off + 1) out1

/-- `memset( p_pixels + off, c, len )`; the length is a `size_t`, so a negative `int`
is a length no object has. -/
def memset (out : out_plane) (off : Int) (c : Nat) (len : Int) : Run out_plane :=
  if len < 0 then .error .outOfBounds else memset.loop c len.toNat off out

/-- The byte loop of `memcpy`. -/
def memcpy.loop (src : List Nat) : Nat → Int → Int → out_plane → Run out_plane
  | 0, _, _, out => .ok out
  | k + 1, off, soff, out =>
    match load src soff with
    | .error e => .error e
    | .ok v =>
      match poke out off v with
      | .error e => .error e
      | .ok out1 => memcpy.loop src k (off + 1) (soff + 1) out1

/-- `memcpy( p_pixels + off, src + soff, len )`. -/
def memcpy (out : out_plane) (off : Int) (src : List Nat) (soff : Int) (len : Int) :
    Run out_plane :=
  if len < 0 then .error .outOfBounds else memcpy.loop src len.toNat off soff out

/-- The black-slot line loop of the tile loop: `memset` one line of the block per pass. -/
def Render.fill (i_cols i_pitch i_col : Int) (color : Nat) :
    Nat → Int → out_plane → Run out_plane
  | 0, _, out => .ok out
  | k + 1, i_row, out =>
    match cdiv (i_col * i_pitch) i_cols with
    | .error e => .error e
    | .ok coff =>
      match cdiv i_pitch i_cols with
      | .error e => .error e
      | .ok bw =>
        match memset out (i_row * i_pitch + coff) color bw with
        | .error e => .error e
        | .ok out1 => Render.fill i_cols i_pitch i_col color k (i_row + 1) out1

/-- The copying line loop of the tile loop: `memcpy` one line of the block per pass. -/
def Render.copy (i_cols i_pitch i_col i_ocol : Int) (src : List Nat) :
    Nat → Int → Int → out_plane → Run out_plane
  | 0, _, _, out => .ok out
  | k + 1, i_row, i_orow, out =>
    match cdiv (i_col * i_pitch) i_cols with
    | .error e => .error e
    | .ok coff =>
      match cdiv (i_ocol * i_pitch) i_cols with
      | .error e => .error e
      | .ok ocoff =>
        match cdiv i_pitch i_cols with
        | .error e => .error e
        | .ok bw =>
          match memcpy out (i_row * i_pitch + coff) src (i_orow * i_pitch + ocoff) bw with
          | .error e => .error e
          | .ok out1 =>
            Render.copy i_cols i_pitch i_col i_ocol src k (i_row + 1) (i_orow + 1) out1

/-- The body of the tile loop of `Render` for display slot `i` of plane `i_plane`. -/
def Render.tile (p_sys : vout_sys_t) (i_plane : Nat) (p_in : plane_t) (i : Int)
    (out : out_plane) : Run out_plane :=
  match cmod i p_sys.i_cols with
  | .error e => .error e
  | .ok i_col =>
  match cdiv i p_sys.i_cols with
  | .error e => .error e
  | .ok i_row =>
  match load p_sys.pi_order i with
  | .error e => .error e
  | .ok o =>
  match cmod o p_sys.i_cols with
  | .error e => .error e
  | .ok i_ocol =>
  match cdiv o p_sys.i_cols with
  | .error e => .error e
  | .ok i_orow =>
  match cdiv p_in.i_lines p_sys.i_rows with
  | .error e => .error e
  | .ok bh =>
    let i_last_row := (i_row + 1) * bh
    let i_orow1 := i_orow * bh
    let i_row1 := i_row * bh
    if p_sys.b_blackslot = true ∧ i = p_sys.i_selected then
      Render.fill p_sys.i_cols p_in.i_pitch i_col (if i_plane = Y_PLANE then 0x0 else 0x80)
        (i_last_row - i_row1).toNat i_row1 out
    else
      Render.copy p_sys.i_cols p_in.i_pitch i_col i_ocol p_in.p_pixels
        (i_last_row - i_row1).toNat i_row1 i_orow1 out

/-- The tile loop `for( i = 0; i < i_cols * i_rows; i++ )`: `k` slots are left, the
next is `i`. -/
def Render.tiles (p_sys : vout_sys_t) (i_plane : Nat) (p_in : plane_t) :
    Nat → Int → out_plane → Run out_plane
  | 0, _, out => .ok out
  | k + 1, i, out =>
    match Render.tile p_sys i_plane p_in i out with
    | .error e => .error e
    | .ok out1 => Render.tiles p_sys i_plane p_in k (i + 1) out1

/-- The tile loop of one plane. -/
def Render.plane (p_sys : vout_sys_t) (i_plane : Nat) (p_in : plane_t) (out : out_plane) :
    Run out_plane :=
  Render.tiles p_sys i_plane p_in (p_sys.i_cols * p_sys.i_rows).toNat 0 out

/-- The plane loop `for( i_plane = 0; i_plane < p_outpic->i_planes; i_plane++ )`. -/
def Render.planes (p_sys : vout_sys_t) (p_pic : List plane_t) :
    Nat → Nat → List out_plane → Run (List out_plane)
  | 0, _, outs => .ok outs
  | k + 1, i_plane, outs =>
    match load p_pic (i_plane : Int) with
    | .error e => .error e
    | .ok p_in =>
      match load outs (i_plane : Int) with
      | .error e => .error e
      | .ok p_out =>
        match Render.plane p_sys i_plane p_in p_out with
        | .error e => .error e
        | .ok res =>
          match store outs (i_plane : Int) res with
          | .error e => .error e
          | .ok outs1 => Render.planes p_sys p_pic k (i_plane + 1) outs1

/-- The side loop of the selection highlight: first and last byte of each line of the
block.  Returns the memory and the final `i_row`. -/
def Render.sides (i_cols i_pitch i_col : Int) : Nat → Int → out_plane → Run (out_plane × Int)
  | 0, i_row, out => .ok (out, i_row)
  | k + 1, i_row, out =>
    match cdiv (i_col * i_pitch) i_cols with
    | .error e => .error e
    | .ok left =>
      match poke out (i_row * i_pitch + left) 0xff with
      | .error e => .error e
      | .ok out1 =>
        match cdiv ((i_col + 1) * i_pitch) i_cols with
        | .error e => .error e
        | .ok right =>
          match poke out1 (i_row * i_pitch + right - 1) 0xff with
          | .error e => .error e
          | .ok out2 => Render.sides i_cols i_pitch i_col k (i_row + 1) out2

/-- The selection highlight of `Render`, drawn on the luma plane. -/
def Render.highlight (p_sys : vout_sys_t) (p_in : plane_t) (out : out_plane) : Run out_plane :=
  match cmod p_sys.i_selected p_sys.i_cols with
  | .error e => .error e
  | .ok i_col =>
  match cdiv p_sys.i_selected p_sys.i_cols with
  | .error e => .error e
  | .ok i_row =>
  match cdiv p_in.i_lines p_sys.i_rows with
  | .error e => .error e
  | .ok bh =>
    let i_last_row := (i_row + 1) * bh
    let i_row1 := i_row * bh
    match cdiv (i_col * p_in.i_pitch) p_sys.i_cols with
    | .error e => .error e
    | .ok coff =>
    match cdiv p_in.i_pitch p_sys.i_cols with
    | .error e => .error e
    | .ok bw =>
    match memset out (i_row1 * p_in.i_pitch + coff) 0xff bw with
    | .error e => .error e
    | .ok out1 =>
    match Render.sides p_sys.i_cols p_in.i_pitch i_col (i_last_row - i_row1).toNat i_row1
        out1 with
    | .error e => .error e
    | .ok (out2, i_row2) => memset out2 ((i_row2 - 1) * p_in.i_pitch + coff) 0xff bw

/-- `Render`: the plane loop, then the selection highlight.  `p_pic` is the source
picture, `p_outpic` the memory of the destination picture. -/
def Render (p_sys : vout_sys_t) (p_pic : List plane_t) (p_outpic : List out_plane) :
    Run (List out_plane) :=
  match Render.planes p_sys p_pic p_outpic.length 0 p_outpic with
  | .error e => .error e
  | .ok outs =>
    if p_sys.i_selected ≠ -1 ∧ p_sys.b_blackslot = false then
      match load p_pic (Y_PLANE : Int) with
      | .error e => .error e
      | .ok p_in =>
        match load outs (Y_PLANE : Int) with
        | .error e => .error e
        | .ok p_out =>
          match Render.highlight p_sys p_in p_out with
          | .error e => .error e
          | .ok res => store outs (Y_PLANE : Int) res
    else .ok outs

theorem load_eq_ok {α : Type} [Inhabited α] {a : List α} {i : Int} {v : α} :
    load a i = .ok v ↔ 0 ≤ i ∧ i < (a.length : Int) ∧ a.getD i.toNat default = v := by
  unfold load
  split_ifs with h
  · simp [h.1, h.2]
  · simp
    intro h0 h1
    exact absurd ⟨h0, h1⟩ h

theorem load_natCast {α : Type} [Inhabited α] (a : List α) (j : Nat) (h : j < a.length) :
    load a (j : Int) = .ok (a[j]) := by
  rw [load_eq_ok]
  refine ⟨by omega, by omega, ?_⟩
  simp [List.getD_eq_getElem?_getD, List.getElem?_eq_getElem h]

theorem store_eq_ok {α : Type} {a b : List α} {i : Int} {v : α} :
    store a i v = .ok b ↔ 0 ≤ i ∧ i < (a.length : Int) ∧ a.set i.toNat v = b := by
  unfold store
  split_ifs with h
  · simp [h.1, h.2]
  · simp
    intro h0 h1
    exact absurd ⟨h0, h1⟩ h

theorem isPermutation_length {n : Int} {l : List Int} (h : IsPermutation n l) :
    l.length = n.toNat := by
  have := List.Perm.length_eq h
  simpa using this

theorem isPermutation_mem {n : Int} {l : List Int} (h : IsPermutation n l) (x : Int) :
    x ∈ l ↔ 0 ≤ x ∧ x < n := by
  rw [List.Perm.mem_iff h]
  simp only [List.mem_map, List.mem_range]
  constructor
  · rintro ⟨a, ha, rfl⟩
    constructor
    · exact Int.ofNat_nonneg a
    · show (a : Int) < n
      omega
  · rintro ⟨h0, h1⟩
    refine ⟨x.toNat, by omega, ?_⟩
    simp [Int.toNat_of_nonneg h0]

theorem isPermutation_nodup {n : Int} {l : List Int} (h : IsPermutation n l) : l.Nodup := by
  rw [List.Perm.nodup_iff h]
  exact (List.nodup_range _).map (fun a b hab => by simpa using hab)

theorem isPermutation_count {n : Int} {l : List Int} (h : IsPermutation n l) (v : Int)
    (h0 : 0 ≤ v) (h1 : v < n) : l.count v = 1 :=
  List.count_eq_one_of_mem (isPermutation_nodup h) ((isPermutation_mem h v).2 ⟨h0, h1⟩)

/-- A list of length `n` in which every value of `[0, n)` occurs is a permutation. -/
theorem isPermutation_of_count {n : Int} {l : List Int} (hlen : (l.length : Int) = n)
    (hc : ∀ v : Int, 0 ≤ v → v < n → v ∈ l) : IsPermutation n l := by
  unfold IsPermutation
  have hnd : ((List.range n.toNat).map Int.ofNat).Nodup :=
    (List.nodup_range _).map (fun a b hab => by simpa using hab)
  have hsub : (List.range n.toNat).map Int.ofNat ⊆ l := by
    intro x hx
    simp only [List.mem_map, List.mem_range] at hx
    obtain ⟨a, ha, rfl⟩ := hx
    apply hc
    · exact Int.ofNat_nonneg a
    · show (a : Int) < n
      omega
  have hsp := List.subperm_of_subset hnd hsub
  exact (hsp.perm_of_length_le (by simp; omega)).symm

theorem finished_loop_true (order : List Int) (k : Nat) (i : Int) :
    finished.loop order k i = .ok true ↔
      ∀ j : Nat, j < k → load order (i + j) = .ok (i + j) := by
  induction k generalizing i with
  | zero => simp [finished.loop]
  | succ k ih =>
    unfold finished.loop
    constructor
    · intro h j hj
      cases hl : load order i with
      | error e => simp [hl] at h
      | ok v =>
        simp only [hl] at h
        by_cases hv : i = v
        · subst hv
          simp only [ne_eq, not_true_eq_false, if_false] at h
          rcases Nat.eq_zero_or_pos j with rfl | hpos
          · simpa using hl
          · have := (ih (i + 1)).1 h (j - 1) (by omega)
            have e : i + 1 + ((j - 1 : Nat) : Int) = i + (j : Int) := by omega
            rwa [e] at this
        · simp [hv] at h
    · intro h
      have h0 := h 0 (by omega)
      simp only [Nat.cast_zero, add_zero] at h0
      simp only [h0, ne_eq, not_true_eq_false, if_false]
      apply (ih (i + 1)).2
      intro j hj
      have := h (j + 1) (by omega)
      have e : i + ((j + 1 : Nat) : Int) = i + 1 + (j : Int) := by push_cast; ring
      rwa [e] at this

theorem finished_loop_total (order : List Int) (k : Nat) (i : Int) (h0 : 0 ≤ i)
    (hlen : i + k ≤ (order.length : Int)) : ∃ b, finished.loop order k i = .ok b := by
  induction k generalizing i with
  | zero => exact ⟨true, rfl⟩
  | succ k ih =>
    unfold finished.loop
    have hl : load order i = .ok (order.getD i.toNat default) := by
      rw [load_eq_ok]; exact ⟨h0, by push_cast at hlen; omega, rfl⟩
    simp only [hl]
    split_ifs with hv
    · exact ⟨false, rfl⟩
    · exact ih (i + 1) (by omega) (by push_cast at hlen; omega)

/-- On an order of the right length `finished` returns, and it returns true exactly
for the identity. -/
theorem finished_spec (s : vout_sys_t) (hlen : (s.pi_order.length : Int) = s.i_cols * s.i_rows) :
    ∃ b, finished s = .ok b ∧
      (b = true ↔ ∀ j : Nat, j < s.pi_order.length → s.pi_order.getD j 0 = (j : Int)) := by
  unfold finished
  have hn : (s.i_cols * s.i_rows).toNat = s.pi_order.length := by omega
  rw [hn]
  obtain ⟨b, hb⟩ := finished_loop_total s.pi_order s.pi_order.length 0 le_rfl (by omega)
  refine ⟨b, hb, ?_⟩
  constructor
  · rintro rfl j hj
    have := (finished_loop_true _ _ _).1 hb j hj
    rw [load_eq_ok] at this
    simpa using this.2.2
  · intro h
    have : finished.loop s.pi_order s.pi_order.length 0 = .ok true := by
      apply (finished_loop_true _ _ _).2
      intro j hj
      rw [load_eq_ok]
      refine ⟨by omega, by omega, ?_⟩
      simpa using h j hj
    rw [hb] at this
    simpa using this

theorem set_set_perm_self (l : List Int) (i j : Nat) (hi : i < l.length) (hj : j < l.length) :
    ((l.set i l[j]).set j l[i]).Perm l := by
  rw [List.perm_iff_count]
  intro b
  rw [List.count_set _ _ _ _ (by simpa using hj), List.count_set _ _ _ _ hi]
  have hj2 : j < (l.set i l[j]).length := by simpa using hj
  have hgj : (l.set i l[j])[j] = l[j] := by
    rw [List.getElem_set]; split_ifs with h
    · rfl
    · rfl
  rw [hgj]
  have hi1 : l[i] = b → 1 ≤ l.count b := fun h =>
    List.count_pos_iff.2 (h ▸ List.getElem_mem hi)
  by_cases h1 : l[i] = b <;> by_cases h2 : l[j] = b <;> simp [h1, h2] <;> omega

theorem exchange_eq_ok {order o : List Int} {s p : Int} :
    exchange order s p = .ok o ↔
      0 ≤ s ∧ s < (order.length : Int) ∧ 0 ≤ p ∧ p < (order.length : Int) ∧
      o = (order.set s.toNat (order.getD p.toNat 0)).set p.toNat (order.getD s.toNat 0) := by
  unfold exchange load store
  by_cases hs : 0 ≤ s ∧ s < (order.length : Int)
  · by_cases hp : 0 ≤ p ∧ p < (order.length : Int)
    · simp only [hs, hp, and_self, if_true, List.length_set]
      simp [hs.1, hs.2, hp.1, hp.2, eq_comm]
    · simp only [hs, and_self, if_true, hp, if_false]
      simp
      intro h0 h1
      exact absurd ⟨h0, h1⟩ hp
  · simp only [hs, if_false]
    simp
    intro h0 h1
    exact absurd ⟨h0, h1⟩ hs

theorem exchange_perm {order o : List Int} {s p : Int} (h : exchange order s p = .ok o) :
    o.Perm order := by
  obtain ⟨hs0, hs1, hp0, hp1, rfl⟩ := exchange_eq_ok.1 h
  have hs : s.toNat < order.length := by omega
  have hp : p.toNat < order.length := by omega
  have e1 : order.getD p.toNat 0 = order[p.toNat] := by
    simp [List.getD_eq_getElem?_getD, List.getElem?_eq_getElem hp]
  have e2 : order.getD s.toNat 0 = order[s.toNat] := by
    simp [List.getD_eq_getElem?_getD, List.getElem?_eq_getElem hs]
  rw [e1, e2]
  exact set_set_perm_self order _ _ hs hp

theorem mem_set_of_ne {l : List Int} {v a : Int} {i : Nat} (hv : v ∈ l)
    (hne : l.getD i 0 ≠ v) : v ∈ l.set i a := by
  obtain ⟨k, hk, rfl⟩ := List.mem_iff_getElem.1 hv
  have hki : i ≠ k := by
    rintro rfl
    apply hne
    simp [List.getD_eq_getElem?_getD, List.getElem?_eq_getElem hk]
  have hk2 : k < (l.set i a).length := by simpa using hk
  have : (l.set i a)[k] = l[k] := by
    rw [List.getElem_set]; simp [hki]
  rw [← this]
  exact List.getElem_mem hk2

theorem place_spec (rand : Nat → Nat) (n : Int) (fuel : Nat) (order : List Int) (c : Int)
    (seed : Nat) (r : List Int × Nat) (hinv : PlaceInv n order c)
    (h : shuffle.place rand n fuel order c seed = .ok r) : PlaceInv n r.1 n := by
  induction fuel generalizing order c seed with
  | zero =>
    unfold shuffle.place at h
    split_ifs at h with hc
    have : c = n := le_antisymm hinv.cn (not_lt.1 hc)
    cases h
    exact this ▸ hinv
  | succ fuel ih =>
    unfold shuffle.place at h
    split_ifs at h with hc
    · cases hm : cmod (rand seed : Int) n with
      | error e => simp [hm] at h
      | ok i =>
        simp only [hm] at h
        cases hl : load order i with
        | error e => simp [hl] at h
        | ok v =>
          simp only [hl] at h
          split_ifs at h with hv
          · cases hs : store order i c with
            | error e => simp [hs] at h
            | ok order1 =>
              simp only [hs] at h
              refine ih order1 (c + 1) (seed + 1) ?_ h
              obtain ⟨hi0, hi1, rfl⟩ := store_eq_ok.1 hs
              obtain ⟨-, -, hget⟩ := load_eq_ok.1 hl
              refine ⟨by simpa using hinv.len, by have := hinv.c0; omega, by omega, ?_⟩
              intro w hw0 hw1
              by_cases hwc : w = c
              · subst hwc
                exact List.mem_iff_getElem.2 ⟨i.toNat, by simp; omega, by simp⟩
              · apply mem_set_of_ne (hinv.occ w hw0 (by omega))
                have : order.getD i.toNat 0 = v := hget
                rw [this, hv]; omega
          · exact ih order c (seed + 1) hinv h
    · have : c = n := le_antisymm hinv.cn (not_lt.1 hc)
      cases h
      exact this ▸ hinv

theorem place_isPermutation (rand : Nat → Nat) (n : Int) (hn : 0 ≤ n) (fuel seed : Nat)
    (r : List Int × Nat)
    (h : shuffle.place rand n fuel (List.replicate n.toNat (-1)) 0 seed = .ok r) :
    IsPermutation n r.1 := by
  have hinv : PlaceInv n (List.replicate n.toNat (-1)) 0 :=
    ⟨by simp; omega, le_rfl, hn, fun v h0 h1 => absurd h1 (not_lt.2 h0)⟩
  have := place_spec rand n fuel _ 0 seed r hinv h
  exact isPermutation_of_count this.len this.occ

theorem rounds_spec (rand : Nat → Nat) (s : vout_sys_t) (hn : 0 ≤ s.i_cols * s.i_rows)
    (fuel seed : Nat) (w : vout_sys_t × Nat) (h : shuffle.rounds rand s fuel seed = .ok w) :
    w.1.i_cols = s.i_cols ∧ w.1.i_rows = s.i_rows ∧ w.1.b_blackslot = s.b_blackslot ∧
    w.1.i_selected = s.i_selected ∧ IsPermutation (s.i_cols * s.i_rows) w.1.pi_order ∧
    w.1.b_finished = false ∧ finished w.1 = .ok false := by
  induction fuel generalizing seed with
  | zero => simp [shuffle.rounds] at h
  | succ fuel ih =>
    unfold shuffle.rounds at h
    simp only at h
    cases hp : shuffle.place rand (s.i_cols * s.i_rows) fuel
        (List.replicate (s.i_cols * s.i_rows).toNat (-1)) 0 seed with
    | error e => simp [hp] at h
    | ok r =>
      obtain ⟨order, seed1⟩ := r
      simp only [hp] at h
      cases hf : finished { s with pi_order := order } with
      | error e => simp [hf] at h
      | ok b =>
        simp only [hf] at h
        cases b with
        | true => simp only [if_true] at h; exact ih seed1 h
        | false =>
          simp only [Bool.false_eq_true, if_false, Except.ok.injEq] at h
          subst h
          exact ⟨rfl, rfl, rfl, rfl, place_isPermutation rand _ hn fuel seed _ hp, rfl, hf⟩

theorem hole_spec (order : List Int) (target sel : Int) (k : Nat) (i r : Int)
    (h : shuffle.hole order target sel k i = .ok r) :
    (∃ j : Nat, j < k ∧ r = i + j ∧ load order r = .ok target) ∨
    (r = sel ∧ ∀ j : Nat, j < k → load order (i + j) ≠ .ok target) := by
  induction k generalizing i with
  | zero =>
    simp only [shuffle.hole, Except.ok.injEq] at h
    exact Or.inr ⟨h.symm, fun j hj => absurd hj (Nat.not_lt_zero j)⟩
  | succ k ih =>
    unfold shuffle.hole at h
    cases hl : load order i with
    | error e => simp [hl] at h
    | ok v =>
      simp only [hl] at h
      split_ifs at h with hv
      · simp only [Except.ok.injEq] at h
        subst h; subst hv
        exact Or.inl ⟨0, by omega, by simp, hl⟩
      · rcases ih (i + 1) h with ⟨j, hj, hr, hlr⟩ | ⟨hr, hall⟩
        · exact Or.inl ⟨j + 1, by omega, by push_cast; omega, hlr⟩
        · refine Or.inr ⟨hr, fun j hj => ?_⟩
          rcases Nat.eq_zero_or_pos j with rfl | hpos
          · simp only [Nat.cast_zero, add_zero, hl]
            intro hc
            exact hv (by simpa using hc)
          · have := hall (j - 1) (by omega)
            have e : i + 1 + ((j - 1 : Nat) : Int) = i + (j : Int) := by omega
            rwa [e] at this

theorem isPermutation_load {n : Int} {l : List Int} (h : IsPermutation n l) (v : Int)
    (h0 : 0 ≤ v) (h1 : v < n) : ∃ j : Nat, j < l.length ∧ load l (j : Int) = .ok v := by
  obtain ⟨k, hk, hv⟩ := List.mem_iff_getElem.1 ((isPermutation_mem h v).2 ⟨h0, h1⟩)
  exact ⟨k, hk, hv ▸ load_natCast l k hk⟩

theorem shuffle_spec (rand : Nat → Nat) (fuel : Nat) (s : vout_sys_t) (seed : Nat)
    (w : vout_sys_t × Nat) (hr : 1 ≤ s.i_rows) (hc : 1 ≤ s.i_cols)
    (h : shuffle rand fuel s seed = .ok w) :
    Valid s.i_rows s.i_cols s.b_blackslot w.1 ∧ w.1.b_finished = false ∧
      (s.b_blackslot = false → w.1.i_selected = -1) := by
  unfold shuffle at h
  have hn : 0 ≤ s.i_cols * s.i_rows := by positivity
  cases hro : shuffle.rounds rand s fuel seed with
  | error e => simp [hro] at h
  | ok r =>
    obtain ⟨sys1, seed1⟩ := r
    obtain ⟨h1, h2, h3, h4, h5, h6, h7⟩ := rounds_spec rand s hn fuel seed _ hro
    simp only at h1 h2 h3 h4 h5 h6 h7
    simp only [hro] at h
    split_ifs at h with hb
    · cases hh : shuffle.hole sys1.pi_order ((sys1.i_cols - 1) * sys1.i_rows) sys1.i_selected
          (sys1.i_cols * sys1.i_rows).toNat 0 with
      | error e => simp [hh] at h
      | ok sel =>
        simp only [hh, Except.ok.injEq] at h
        subst h
        have htgt0 : 0 ≤ (s.i_cols - 1) * s.i_rows := by
          apply mul_nonneg <;> omega
        have htgt1 : (s.i_cols - 1) * s.i_rows < s.i_cols * s.i_rows := by nlinarith
        rw [h1, h2] at hh
        have hlen := isPermutation_length h5
        rcases hole_spec _ _ _ _ _ _ hh with ⟨j, hj, hr2, hl⟩ | ⟨-, hall⟩
        · refine ⟨⟨h2, h1, h3, h5, ?_, Or.inr ⟨by show 0 ≤ sel; omega, by show sel < _; omega⟩, fun _ => hl⟩, h6, ?_⟩
          · show finished sys1 = .ok sys1.b_finished
            rw [h6]; exact h7
          · intro hbs; rw [← h3, hb] at hbs; cases hbs
        · exfalso
          obtain ⟨j, hj, hl⟩ := isPermutation_load h5 _ htgt0 htgt1
          refine hall j (by omega) ?_
          simpa using hl
    · simp only [Except.ok.injEq] at h
      subst h
      refine ⟨⟨h2, h1, h3, h5, ?_, Or.inl rfl, ?_⟩, h6, fun _ => rfl⟩
      · show finished sys1 = .ok sys1.b_finished
        rw [h6]; exact h7
      · intro hbs; rw [h3] at hb; exact absurd hbs hb

theorem wrap32_of_range (x : Int) (h0 : INT_MIN ≤ x) (h1 : x ≤ INT_MAX) : wrap32 x = x := by
  unfold INT_MIN at h0
  unfold INT_MAX at h1
  unfold wrap32
  omega

theorem idiv_nonneg (a b : Int) (ha : 0 ≤ a) (hb : 0 < b) : idiv a b = .ok (a / b) := by
  unfold idiv INT_MIN
  rw [if_neg (by omega), if_neg (by omega), Int.tdiv_eq_ediv ha (by omega)]

theorem idiv_pos_divisor (a b : Int) (hb : 0 < b) : idiv a b = .ok (a.tdiv b) := by
  unfold idiv
  rw [if_neg (by omega), if_neg (by omega)]

/-- With positive frame dimensions the slot computation returns some `int`. -/
theorem i_pos_returns (s : vout_sys_t) (i_x i_y v_w v_h : Int) (hw : 0 < v_w) (hh : 0 < v_h) :
    ∃ p, i_pos s i_x i_y v_w v_h = .ok p := by
  unfold i_pos
  rw [idiv_pos_divisor _ _ hh, idiv_pos_divisor _ _ hw]
  exact ⟨_, rfl⟩

theorem i_pos_in_frame (s : vout_sys_t) (i_x i_y v_w v_h : Int) (hr : 1 ≤ s.i_rows)
    (hc : 1 ≤ s.i_cols) (hn : s.i_cols * s.i_rows ≤ INT_MAX)
    (hx0 : 0 ≤ i_x) (hx1 : i_x < v_w) (hy0 : 0 ≤ i_y) (hy1 : i_y < v_h)
    (hby : s.i_rows * i_y ≤ INT_MAX) (hbx : s.i_cols * i_x ≤ INT_MAX) :
    ∃ p, i_pos s i_x i_y v_w v_h = .ok p ∧
      p = s.i_cols * (s.i_rows * i_y / v_h) + s.i_cols * i_x / v_w ∧
      0 ≤ s.i_rows * i_y / v_h ∧ s.i_rows * i_y / v_h < s.i_rows ∧
      0 ≤ s.i_cols * i_x / v_w ∧ s.i_cols * i_x / v_w < s.i_cols ∧
      0 ≤ p ∧ p < s.i_cols * s.i_rows := by
  have hmin : INT_MIN ≤ 0 := by decide
  have hy2 : 0 ≤ s.i_rows * i_y := mul_nonneg (by omega) hy0
  have hx2 : 0 ≤ s.i_cols * i_x := mul_nonneg (by omega) hx0
  have r0 : 0 ≤ s.i_rows * i_y / v_h := Int.ediv_nonneg hy2 (by omega)
  have c0 : 0 ≤ s.i_cols * i_x / v_w := Int.ediv_nonneg hx2 (by omega)
  have r1 : s.i_rows * i_y / v_h < s.i_rows :=
    Int.ediv_lt_of_lt_mul (by omega) (mul_lt_mul_of_pos_left hy1 (by omega))
  have c1 : s.i_cols * i_x / v_w < s.i_cols :=
    Int.ediv_lt_of_lt_mul (by omega) (mul_lt_mul_of_pos_left hx1 (by omega))
  have h1 : s.i_cols * (s.i_rows * i_y / v_h) ≤ s.i_cols * (s.i_rows - 1) :=
    mul_le_mul_of_nonneg_left (by omega) (by omega)
  have h2 : s.i_cols * (s.i_rows - 1) = s.i_cols * s.i_rows - s.i_cols := by ring
  have h3 : 0 ≤ s.i_cols * (s.i_rows * i_y / v_h) := mul_nonneg (by omega) r0
  have hp1 : s.i_cols * (s.i_rows * i_y / v_h) + s.i_cols * i_x / v_w
      < s.i_cols * s.i_rows := by omega
  refine ⟨_, ?_, rfl, r0, r1, c0, c1, add_nonneg h3 c0, hp1⟩
  unfold i_pos
  rw [wrap32_of_range _ (by omega) hby, wrap32_of_range _ (by omega) hbx,
    idiv_nonneg _ _ hy2 (by omega), idiv_nonneg _ _ hx2 (by omega)]
  simp only
  rw [wrap32_of_range (s.i_cols * (s.i_rows * i_y / v_h)) (by omega) (by omega),
    wrap32_of_range _ (by omega) (by omega)]

theorem exchange_getD {order o : List Int} {s p : Int} (h : exchange order s p = .ok o)
    (j : Nat) :
    o.getD j 0 = if j = p.toNat then order.getD s.toNat 0
      else if j = s.toNat then order.getD p.toNat 0 else order.getD j 0 := by
  obtain ⟨hs0, hs1, hp0, hp1, rfl⟩ := exchange_eq_ok.1 h
  simp only [List.getD_eq_getElem?_getD, List.getElem?_set]
  by_cases hjp : j = p.toNat
  · subst hjp
    have : p.toNat < order.length := by omega
    simp [this]
  · have hjp2 : ¬ p.toNat = j := fun e => hjp e.symm
    simp only [hjp, hjp2, if_false]
    by_cases hjs : j = s.toNat
    · subst hjs
      have : s.toNat < order.length := by omega
      simp [this]
    · have hjs2 : ¬ s.toNat = j := fun e => hjs e.symm
      simp [hjs, hjs2]

theorem exchange_length {order o : List Int} {s p : Int} (h : exchange order s p = .ok o) :
    o.length = order.length := by
  obtain ⟨-, -, -, -, rfl⟩ := exchange_eq_ok.1 h
  simp

theorem mouseEvent_not_clicked (rand : Nat → Nat) (fuel : Nat) (w : vout_sys_t × Nat)
    (psz_var : mouse_var) (i_x i_y v_w v_h : Int) (hclk : psz_var ≠ mouse_var.clicked) :
    MouseEvent rand fuel w psz_var i_x i_y v_w v_h = .ok w := by
  simp [MouseEvent, hclk]

theorem mouseEvent_solved (rand : Nat → Nat) (fuel : Nat) (w : vout_sys_t × Nat)
    (i_x i_y v_w v_h p : Int) (hp : i_pos w.1 i_x i_y v_w v_h = .ok p)
    (hfin : w.1.b_finished = true) :
    MouseEvent rand fuel w mouse_var.clicked i_x i_y v_w v_h = shuffle rand fuel w.1 w.2 := by
  simp [MouseEvent, hp, hfin]

theorem mouseEvent_select (rand : Nat → Nat) (fuel : Nat) (w : vout_sys_t × Nat)
    (i_x i_y v_w v_h p : Int) (hp : i_pos w.1 i_x i_y v_w v_h = .ok p)
    (hfin : w.1.b_finished = false) (hsel : w.1.i_selected = -1) :
    MouseEvent rand fuel w mouse_var.clicked i_x i_y v_w v_h =
      .ok ({ w.1 with i_selected := p }, w.2) := by
  simp [MouseEvent, hp, hfin, hsel]

theorem mouseEvent_deselect (rand : Nat → Nat) (fuel : Nat) (w : vout_sys_t × Nat)
    (i_x i_y v_w v_h p : Int) (hp : i_pos w.1 i_x i_y v_w v_h = .ok p)
    (hfin : w.1.b_finished = false) (hsel : w.1.i_selected ≠ -1) (hsame : w.1.i_selected = p)
    (hbs : w.1.b_blackslot = false) :
    MouseEvent rand fuel w mouse_var.clicked i_x i_y v_w v_h =
      .ok ({ w.1 with i_selected := -1 }, w.2) := by
  have hp1 : ¬ p = -1 := fun e => hsel (hsame.trans e)
  simp [MouseEvent, hp, hfin, hsame, hbs, hp1]

theorem mouseEvent_swap (rand : Nat → Nat) (fuel : Nat) (w : vout_sys_t × Nat)
    (i_x i_y v_w v_h p : Int) (hp : i_pos w.1 i_x i_y v_w v_h = .ok p)
    (hfin : w.1.b_finished = false) (hsel : w.1.i_selected ≠ -1)
    (hdes : ¬ (w.1.i_selected = p ∧ w.1.b_blackslot = false)) (hadj : adjacent w.1 p) :
    MouseEvent rand fuel w mouse_var.clicked i_x i_y v_w v_h =
      match exchange w.1.pi_order w.1.i_selected p with
      | .error e => .error e
      | .ok order =>
        match finished { w.1 with pi_order := order } with
        | .error e => .error e
        | .ok b => .ok ({ w.1 with pi_order := order,
                                   i_selected := if w.1.b_blackslot = true then p else -1,
                                   b_finished := b }, w.2) := by
  unfold MouseEvent
  simp only [hp, hfin, if_true, Bool.false_eq_true, if_false, hsel, hdes, hadj]
  rfl

theorem mouseEvent_noop (rand : Nat → Nat) (fuel : Nat) (w : vout_sys_t × Nat)
    (i_x i_y v_w v_h p : Int) (hp : i_pos w.1 i_x i_y v_w v_h = .ok p)
    (hfin : w.1.b_finished = false) (hsel : w.1.i_selected ≠ -1)
    (hdes : ¬ (w.1.i_selected = p ∧ w.1.b_blackslot = false)) (hadj : ¬ adjacent w.1 p) :
    MouseEvent rand fuel w mouse_var.clicked i_x i_y v_w v_h = .ok w := by
  unfold MouseEvent
  simp only [hp, hfin, if_true, Bool.false_eq_true, if_false, hsel, hdes, hadj]

theorem mouseEvent_valid (rand : Nat → Nat) (fuel : Nat) (rows cols : Int) (bs : Bool)
    (w w' : vout_sys_t × Nat) (psz_var : mouse_var) (i_x i_y v_w v_h : Int)
    (hr : 1 ≤ rows) (hc : 1 ≤ cols) (hn : cols * rows ≤ INT_MAX) (hv : Valid rows cols bs w.1)
    (hx0 : 0 ≤ i_x) (hx1 : i_x < v_w) (hy0 : 0 ≤ i_y) (hy1 : i_y < v_h)
    (hby : rows * i_y ≤ INT_MAX) (hbx : cols * i_x ≤ INT_MAX)
    (h : MouseEvent rand fuel w psz_var i_x i_y v_w v_h = .ok w') : Valid rows cols bs w'.1 := by
  have hr2 : 1 ≤ w.1.i_rows := by rw [hv.rows_eq]; exact hr
  have hc2 : 1 ≤ w.1.i_cols := by rw [hv.cols_eq]; exact hc
  obtain ⟨p, hp, -, -, -, -, -, hp0, hp1⟩ :=
    i_pos_in_frame w.1 i_x i_y v_w v_h hr2 hc2 (by rw [hv.rows_eq, hv.cols_eq]; exact hn)
      hx0 hx1 hy0 hy1 (by rw [hv.rows_eq]; exact hby) (by rw [hv.cols_eq]; exact hbx)
  rw [hv.rows_eq, hv.cols_eq] at hp1
  by_cases hclk : psz_var = mouse_var.clicked
  swap
  · rw [mouseEvent_not_clicked rand fuel w psz_var i_x i_y v_w v_h hclk] at h
    cases h; exact hv
  subst hclk
  by_cases hfin : w.1.b_finished = true
  · rw [mouseEvent_solved rand fuel w i_x i_y v_w v_h p hp hfin] at h
    have := (shuffle_spec rand fuel w.1 w.2 w' hr2 hc2 h).1
    rwa [hv.rows_eq, hv.cols_eq, hv.bs_eq] at this
  have hfin : w.1.b_finished = false := by simpa using hfin
  by_cases hsel : w.1.i_selected = -1
  · rw [mouseEvent_select rand fuel w i_x i_y v_w v_h p hp hfin hsel] at h
    cases h
    refine ⟨hv.rows_eq, hv.cols_eq, hv.bs_eq, hv.perm, hv.coherent, Or.inr ⟨hp0, hp1⟩, ?_⟩
    intro hb
    have := hv.hole hb
    rw [hsel, load_eq_ok] at this
    omega
  by_cases hdes : w.1.i_selected = p ∧ w.1.b_blackslot = false
  · rw [mouseEvent_deselect rand fuel w i_x i_y v_w v_h p hp hfin hsel hdes.1 hdes.2] at h
    cases h
    refine ⟨hv.rows_eq, hv.cols_eq, hv.bs_eq, hv.perm, hv.coherent, Or.inl rfl, ?_⟩
    intro hb
    rw [← hv.bs_eq, hdes.2] at hb
    cases hb
  by_cases hadj : adjacent w.1 p
  swap
  · rw [mouseEvent_noop rand fuel w i_x i_y v_w v_h p hp hfin hsel hdes hadj] at h
    cases h; exact hv
  rw [mouseEvent_swap rand fuel w i_x i_y v_w v_h p hp hfin hsel hdes hadj] at h
  cases hex : exchange w.1.pi_order w.1.i_selected p with
  | error e => simp [hex] at h
  | ok order =>
    simp only [hex] at h
    cases hf : finished { w.1 with pi_order := order } with
    | error e => simp [hf] at h
    | ok b =>
      simp only [hf, Except.ok.injEq] at h
      subst h
      refine ⟨hv.rows_eq, hv.cols_eq, hv.bs_eq, (exchange_perm hex).trans hv.perm, hf, ?_, ?_⟩
      · show (if w.1.b_blackslot = true then p else -1) = -1 ∨ _
        split_ifs
        · exact Or.inr ⟨hp0, hp1⟩
        · exact Or.inl rfl
      · intro hb
        have hsb : w.1.b_blackslot = true := by rw [hv.bs_eq]; exact hb
        show load order (if w.1.b_blackslot = true then p else -1) = _
        rw [if_pos hsb]
        obtain ⟨-, -, hget⟩ := load_eq_ok.1 (hv.hole hb)
        rw [load_eq_ok]
        refine ⟨hp0, ?_, ?_⟩
        · rw [exchange_length hex, isPermutation_length hv.perm]; omega
        · show order.getD p.toNat 0 = _
          rw [exchange_getD hex, if_pos rfl]
          exact hget

theorem reachable_valid (rand : Nat → Nat) (rows cols : Int) (bs : Bool) (hr : 1 ≤ rows)
    (hc : 1 ≤ cols) (hn : cols * rows ≤ INT_MAX) (w : vout_sys_t × Nat)
    (h : Reachable rand rows cols bs w) : Valid rows cols bs w.1 := by
  induction h with
  | create fuel seed sel0 fin0 w hw =>
    exact (shuffle_spec rand fuel _ seed w hr hc hw).1
  | click fuel w w' psz_var i_x i_y v_w v_h _ hx0 hx1 hy0 hy1 hby hbx hstep ih =>
    exact mouseEvent_valid rand fuel rows cols bs w w' psz_var i_x i_y v_w v_h hr hc hn ih
      hx0 hx1 hy0 hy1 hby hbx hstep

theorem isPermutation_explicit {n : Int} {l : List Int} (h : IsPermutation n l) (hn : 0 ≤ n) :
    (l.length : Int) = n ∧ (∀ x ∈ l, 0 ≤ x ∧ x < n) ∧
      ∀ v : Int, 0 ≤ v → v < n → l.count v = 1 :=
  ⟨by rw [isPermutation_length h]; omega, fun x hx => (isPermutation_mem h x).1 hx,
    isPermutation_count h⟩

theorem load_inj_of_nodup {l : List Int} (hnd : l.Nodup) {i j v : Int}
    (hi : load l i = .ok v) (hj : load l j = .ok v) : i = j := by
  obtain ⟨hi0, hi1, hiv⟩ := load_eq_ok.1 hi
  obtain ⟨hj0, hj1, hjv⟩ := load_eq_ok.1 hj
  have hi2 : i.toNat < l.length := by omega
  have hj2 : j.toNat < l.length := by omega
  have e1 : l[i.toNat] = v := by
    simpa [List.getD_eq_getElem?_getD, List.getElem?_eq_getElem hi2] using hiv
  have e2 : l[j.toNat] = v := by
    simpa [List.getD_eq_getElem?_getD, List.getElem?_eq_getElem hj2] using hjv
  have e3 : l[i.toNat] = l[j.toNat] := e1.trans e2.symm
  have := (List.Nodup.getElem_inj_iff hnd).1 e3
  omega

/-- A run of the filter on a 1x2 grid: `Create`, then a click that selects slot 0. -/
theorem demo_reachable_selected :
    Reachable demoRand 1 2 false (⟨2, 1, [1, 0], 0, false, false⟩, 2) :=
  Reachable.click 0 (⟨2, 1, [1, 0], -1, false, false⟩, 2) _ mouse_var.clicked 0 0 2 1
    (Reachable.create 3 0 7 true _ rfl) (by decide) (by decide) (by decide) (by decide)
    (by decide) (by decide) rfl

/-- The run continues with a click on slot 1, which solves the puzzle. -/
theorem demo_reachable_solved :
    Reachable demoRand 1 2 false (⟨2, 1, [0, 1], -1, true, false⟩, 2) :=
  Reachable.click 0 _ _ mouse_var.clicked 1 0 2 1 demo_reachable_selected
    (by decide) (by decide) (by decide) (by decide) (by decide) (by decide) rfl

/-- The next click reshuffles. -/
theorem demo_reachable_reshuffled :
    Reachable demoRand 1 2 false (⟨2, 1, [1, 0], -1, false, false⟩, 5) :=
  Reachable.click 4 _ _ mouse_var.clicked 1 0 2 1 demo_reachable_solved
    (by decide) (by decide) (by decide) (by decide) (by decide) (by decide) rfl

/-- The swap branch of the click handler, spelled out: what it needs and what it yields. -/
theorem mouseEvent_swap_result (rand : Nat → Nat) (fuel : Nat) (w : vout_sys_t × Nat)
    (i_x i_y v_w v_h p : Int) (hp : i_pos w.1 i_x i_y v_w v_h = .ok p)
    (hfin : w.1.b_finished = false) (hsel : w.1.i_selected ≠ -1)
    (hdes : ¬ (w.1.i_selected = p ∧ w.1.b_blackslot = false)) (hadj : adjacent w.1 p)
    (hlen : (w.1.pi_order.length : Int) = w.1.i_cols * w.1.i_rows)
    (hs0 : 0 ≤ w.1.i_selected) (hs1 : w.1.i_selected < (w.1.pi_order.length : Int))
    (hp0 : 0 ≤ p) (hp1 : p < (w.1.pi_order.length : Int)) :
    ∃ order b, exchange w.1.pi_order w.1.i_selected p = .ok order ∧
      finished { w.1 with pi_order := order } = .ok b ∧
      (b = true ↔ ∀ j : Nat, j < order.length → order.getD j 0 = (j : Int)) ∧
      MouseEvent rand fuel w mouse_var.clicked i_x i_y v_w v_h =
        .ok ({ w.1 with pi_order := order,
                        i_selected := if w.1.b_blackslot = true then p else -1,
                        b_finished := b }, w.2) := by
  have hex := exchange_eq_ok.2 ⟨hs0, hs1, hp0, hp1, rfl⟩
  have hl2 := exchange_length hex
  obtain ⟨b, hb, hiff⟩ := finished_spec { w.1 with pi_order := _ }
    (by show ((_ : List Int).length : Int) = _; rw [hl2]; exact hlen)
  refine ⟨_, b, hex, hb, hiff, ?_⟩
  rw [mouseEvent_swap rand fuel w i_x i_y v_w v_h p hp hfin hsel hdes hadj]
  simp only [hex, hb]

/-- On an unsolved grid a mouse event inside the frame whose products fit an `int` is
handled without a fault: every array access of the handler is inside `pi_order`. -/
theorem mouseEvent_returns (rand : Nat → Nat) (fuel : Nat) (rows cols : Int) (bs : Bool)
    (w : vout_sys_t × Nat) (psz_var : mouse_var) (i_x i_y v_w v_h : Int)
    (hr : 1 ≤ rows) (hc : 1 ≤ cols) (hn : cols * rows ≤ INT_MAX) (hv : Valid rows cols bs w.1)
    (hx0 : 0 ≤ i_x) (hx1 : i_x < v_w) (hy0 : 0 ≤ i_y) (hy1 : i_y < v_h)
    (hby : rows * i_y ≤ INT_MAX) (hbx : cols * i_x ≤ INT_MAX)
    (hfin : w.1.b_finished = false) :
    ∃ w', MouseEvent rand fuel w psz_var i_x i_y v_w v_h = .ok w' := by
  have hr2 : 1 ≤ w.1.i_rows := by rw [hv.rows_eq]; exact hr
  have hc2 : 1 ≤ w.1.i_cols := by rw [hv.cols_eq]; exact hc
  obtain ⟨p, hp, -, -, -, -, -, hp0, hp1⟩ :=
    i_pos_in_frame w.1 i_x i_y v_w v_h hr2 hc2 (by rw [hv.rows_eq, hv.cols_eq]; exact hn)
      hx0 hx1 hy0 hy1 (by rw [hv.rows_eq]; exact hby) (by rw [hv.cols_eq]; exact hbx)
  have hlen : (w.1.pi_order.length : Int) = w.1.i_cols * w.1.i_rows := by
    rw [isPermutation_length hv.perm, hv.cols_eq, hv.rows_eq]
    have : 0 ≤ cols * rows := by positivity
    omega
  by_cases hclk : psz_var = mouse_var.clicked
  swap
  · exact ⟨w, mouseEvent_not_clicked rand fuel w psz_var i_x i_y v_w v_h hclk⟩
  subst hclk
  by_cases hsel : w.1.i_selected = -1
  · exact ⟨_, mouseEvent_select rand fuel w i_x i_y v_w v_h p hp hfin hsel⟩
  by_cases hdes : w.1.i_selected = p ∧ w.1.b_blackslot = false
  · exact ⟨_, mouseEvent_deselect rand fuel w i_x i_y v_w v_h p hp hfin hsel hdes.1 hdes.2⟩
  by_cases hadj : adjacent w.1 p
  swap
  · exact ⟨w, mouseEvent_noop rand fuel w i_x i_y v_w v_h p hp hfin hsel hdes hadj⟩
  have hs : 0 ≤ w.1.i_selected ∧ w.1.i_selected < cols * rows := by
    rcases hv.sel with h | h
    · exact absurd h hsel
    · exact h
  obtain ⟨order, b, -, -, -, hme⟩ := mouseEvent_swap_result rand fuel w i_x i_y v_w v_h p
    hp hfin hsel hdes hadj hlen hs.1 (by rw [hlen, hv.cols_eq, hv.rows_eq]; exact hs.2)
    hp0 (by rw [hlen]; exact hp1)
  exact ⟨_, hme⟩

/-- An order without repetitions changes when two different slots are exchanged. -/
theorem exchange_ne_of_nodup {order o : List Int} {s p : Int} (hnd : order.Nodup)
    (hne : s ≠ p) (h : exchange order s p = .ok o) : o ≠ order := by
  obtain ⟨hs0, hs1, hp0, hp1, -⟩ := exchange_eq_ok.1 h
  intro heq
  have h1 := exchange_getD h p.toNat
  rw [if_pos rfl, heq] at h1
  have hp2 : p.toNat < order.length := by omega
  have hs2 : s.toNat < order.length := by omega
  simp only [List.getD_eq_getElem?_getD, List.getElem?_eq_getElem hp2,
    List.getElem?_eq_getElem hs2, Option.getD_some] at h1
  have := (List.Nodup.getElem_inj_iff hnd).1 h1
  omega

theorem i_pos_congr (s t : vout_sys_t) (hr : t.i_rows = s.i_rows) (hc : t.i_cols = s.i_cols)
    (i_x i_y v_w v_h : Int) : i_pos t i_x i_y v_w v_h = i_pos s i_x i_y v_w v_h := by
  unfold i_pos
  rw [hr, hc]

theorem mouseEvent_ok_i_pos (rand : Nat → Nat) (fuel : Nat) (w w' : vout_sys_t × Nat)
    (i_x i_y v_w v_h : Int)
    (h : MouseEvent rand fuel w mouse_var.clicked i_x i_y v_w v_h = .ok w') :
    ∃ p, i_pos w.1 i_x i_y v_w v_h = .ok p := by
  cases hp : i_pos w.1 i_x i_y v_w v_h with
  | error e => simp [MouseEvent, hp] at h
  | ok p => exact ⟨p, rfl⟩

/-- A mouse event on an unsolved grid that changes the order took the swap branch. -/
theorem mouseEvent_order_changed (rand : Nat → Nat) (fuel : Nat) (w w' : vout_sys_t × Nat)
    (psz_var : mouse_var) (i_x i_y v_w v_h : Int) (hfin : w.1.b_finished = false)
    (h : MouseEvent rand fuel w psz_var i_x i_y v_w v_h = .ok w')
    (hch : w'.1.pi_order ≠ w.1.pi_order) :
    psz_var = mouse_var.clicked ∧ ∃ p, i_pos w.1 i_x i_y v_w v_h = .ok p ∧
      w.1.i_selected ≠ -1 ∧ ¬ (w.1.i_selected = p ∧ w.1.b_blackslot = false) ∧
      adjacent w.1 p ∧ exchange w.1.pi_order w.1.i_selected p = .ok w'.1.pi_order ∧
      w'.1.i_selected = (if w.1.b_blackslot = true then p else -1) := by
  by_cases hclk : psz_var = mouse_var.clicked
  swap
  · rw [mouseEvent_not_clicked rand fuel w psz_var i_x i_y v_w v_h hclk] at h
    cases h; exact absurd rfl hch
  subst hclk
  obtain ⟨p, hp⟩ := mouseEvent_ok_i_pos rand fuel w w' i_x i_y v_w v_h h
  refine ⟨rfl, p, hp, ?_⟩
  by_cases hsel : w.1.i_selected = -1
  · rw [mouseEvent_select rand fuel w i_x i_y v_w v_h p hp hfin hsel] at h
    cases h; exact absurd rfl hch
  by_cases hdes : w.1.i_selected = p ∧ w.1.b_blackslot = false
  · rw [mouseEvent_deselect rand fuel w i_x i_y v_w v_h p hp hfin hsel hdes.1 hdes.2] at h
    cases h; exact absurd rfl hch
  by_cases hadj : adjacent w.1 p
  swap
  · rw [mouseEvent_noop rand fuel w i_x i_y v_w v_h p hp hfin hsel hdes hadj] at h
    cases h; exact absurd rfl hch
  rw [mouseEvent_swap rand fuel w i_x i_y v_w v_h p hp hfin hsel hdes hadj] at h
  cases hex : exchange w.1.pi_order w.1.i_selected p with
  | error e => simp [hex] at h
  | ok order =>
    simp only [hex] at h
    cases hf : finished { w.1 with pi_order := order } with
    | error e => simp [hf] at h
    | ok b =>
      simp only [hf, Except.ok.injEq] at h
      subst h
      exact ⟨hsel, hdes, hadj, rfl, rfl⟩

/-- A run in black-slot mode on a 2x2 grid: the state `Create` returns. -/
theorem demo_reachable_blackslot :
    Reachable demoRand 2 2 true (⟨2, 2, [1, 0, 3, 2], 3, false, true⟩, 7) :=
  Reachable.create 8 0 9 true _ rfl

theorem finished_true_iff (s : vout_sys_t) :
    finished s = .ok true ↔
      ∀ i : Int, 0 ≤ i → i < s.i_cols * s.i_rows → load s.pi_order i = .ok i := by
  unfold finished
  rw [finished_loop_true]
  constructor
  · intro h i hi0 hi1
    have := h i.toNat (by omega)
    rwa [zero_add, Int.toNat_of_nonneg hi0] at this
  · intro h j hj
    rw [zero_add]
    exact h j (by omega) (by omega)

/-- On a 1x1 grid a pass of the placing loop that has any budget fills the single slot
with id 0, drawing one random value. -/
theorem place_one_by_one (rand : Nat → Nat) (fuel seed : Nat) :
    shuffle.place rand 1 (fuel + 1) [-1] 0 seed = .ok ([0], seed + 1) := by
  have hm : cmod (rand seed : Int) 1 = .ok 0 := by
    unfold cmod
    rw [if_neg (by decide), Int.tmod_one]
  unfold shuffle.place
  simp only [hm]
  cases fuel with
  | zero => rfl
  | succ k => rfl

theorem rounds_one_by_one (rand : Nat → Nat) (s : vout_sys_t) (hr : s.i_rows = 1)
    (hc : s.i_cols = 1) (fuel seed : Nat) :
    shuffle.rounds rand s fuel seed = .error .outOfFuel := by
  induction fuel generalizing seed with
  | zero => rfl
  | succ fuel ih =>
    unfold shuffle.rounds
    have hn : s.i_cols * s.i_rows = 1 := by rw [hr, hc]; rfl
    simp only [hn]
    have hrep : List.replicate (1 : Int).toNat (-1 : Int) = [-1] := rfl
    rw [hrep]
    cases fuel with
    | zero => rfl
    | succ k =>
      rw [place_one_by_one]
      have hf : finished { s with pi_order := [0] } = .ok true := by
        unfold finished
        simp only [hn]
        rfl
      simp only [hf, if_true]
      exact ih (seed + 1)

/-- C1 as stated fails: on a 1x2 grid (rows = 1, cols = 2) the state with order [1, 0]
and slot 0 selected is reached from Create by one in-frame click.  There the in-frame
click at x = 1073741824 of a frame 2147483647 wide makes the `int` product cols * x
overflow: the handler computes slot -1, the adjacency test passes
(i_selected == i_pos + 1) and the exchange accesses pi_order[-1], outside the array.
This sequence of in-frame clicks ends in no state whose order is a bijection. -/
theorem C1_counterexample :
    Reachable demoRand 1 2 false (⟨2, 1, [1, 0], 0, false, false⟩, 2) ∧
      (0 : Int) ≤ 1073741824 ∧ (1073741824 : Int) < 2147483647 ∧
      (0 : Int) ≤ 0 ∧ (0 : Int) < 1 ∧
      i_pos ⟨2, 1, [1, 0], 0, false, false⟩ 1073741824 0 2147483647 1 = .ok (-1) ∧
      adjacent ⟨2, 1, [1, 0], 0, false, false⟩ (-1) ∧
      MouseEvent demoRand 0 (⟨2, 1, [1, 0], 0, false, false⟩, 2) mouse_var.clicked
        1073741824 0 2147483647 1 = .error .outOfBounds :=
  ⟨demo_reachable_selected, by decide, by decide, by decide, by decide, by decide, by decide,
    by decide⟩

/-- C1 amended: for rows, cols >= 1 with rows*cols <= INT_MAX (the claim adds
rows*cols > 1, which is not needed), in every state reachable from Create by mouse
events whose coordinates lie in the frame and whose products rows*y and cols*x fit an
int, reshuffles included, pi_order has rows*cols entries, every entry lies in
[0, rows*cols) and every value of that range occurs exactly once; and while the grid is
unsolved every further such mouse event is handled without a fault and gives the next
state. -/
theorem C1_order_bijection_reachable (rand : Nat → Nat) (rows cols : Int) (blackslot : Bool)
    (w : vout_sys_t × Nat) (hr : 1 ≤ rows) (hc : 1 ≤ cols) (hn : rows * cols ≤ INT_MAX)
    (h : Reachable rand rows cols blackslot w) :
    ((w.1.pi_order.length : Int) = rows * cols ∧
      (∀ x ∈ w.1.pi_order, 0 ≤ x ∧ x < rows * cols) ∧
      ∀ v : Int, 0 ≤ v → v < rows * cols → w.1.pi_order.count v = 1) ∧
    ∀ (fuel : Nat) (psz_var : mouse_var) (i_x i_y v_w v_h : Int),
      0 ≤ i_x → i_x < v_w → 0 ≤ i_y → i_y < v_h →
      rows * i_y ≤ INT_MAX → cols * i_x ≤ INT_MAX → w.1.b_finished = false →
      ∃ w', MouseEvent rand fuel w psz_var i_x i_y v_w v_h = .ok w' := by
  have hn2 : cols * rows ≤ INT_MAX := by rw [mul_comm]; exact hn
  have hv := reachable_valid rand rows cols blackslot hr hc hn2 w h
  constructor
  · rw [mul_comm rows cols]
    exact isPermutation_explicit hv.perm (by positivity)
  · intro fuel psz_var i_x i_y v_w v_h hx0 hx1 hy0 hy1 hby hbx hfin
    exact mouseEvent_returns rand fuel rows cols blackslot w psz_var i_x i_y v_w v_h hr hc hn2
      hv hx0 hx1 hy0 hy1 hby hbx hfin

theorem C1_order_bijection_reachable_witness :
    ((([1, 0] : List Int).length : Int) = 1 * 2 ∧
      (∀ x ∈ ([1, 0] : List Int), 0 ≤ x ∧ x < 1 * 2) ∧
      ∀ v : Int, 0 ≤ v → v < 1 * 2 → ([1, 0] : List Int).count v = 1) ∧
    ∀ (fuel : Nat) (psz_var : mouse_var) (i_x i_y v_w v_h : Int),
      0 ≤ i_x → i_x < v_w → 0 ≤ i_y → i_y < v_h →
      1 * i_y ≤ INT_MAX → 2 * i_x ≤ INT_MAX → false = false →
      ∃ w', MouseEvent demoRand fuel (⟨2, 1, [1, 0], -1, false, false⟩, 5) psz_var
        i_x i_y v_w v_h = .ok w' :=
  C1_order_bijection_reachable demoRand 1 2 false (⟨2, 1, [1, 0], -1, false, false⟩, 5)
    (by decide) (by decide) (by decide) demo_reachable_reshuffled

/-- C2: for rows, cols >= 1 and every random stream and step budget on which shuffle
returns, the grid size is unchanged, the resulting pi_order is a permutation of
[0, rows*cols), finished() is false on it, and b_finished is false. -/
theorem C2_shuffle_permutation_unsolved (rand : Nat → Nat) (fuel : Nat) (s : vout_sys_t)
    (seed : Nat) (w : vout_sys_t × Nat) (hr : 1 ≤ s.i_rows) (hc : 1 ≤ s.i_cols)
    (h : shuffle rand fuel s seed = .ok w) :
    w.1.i_rows = s.i_rows ∧ w.1.i_cols = s.i_cols ∧
      (w.1.pi_order.length : Int) = s.i_rows * s.i_cols ∧
      (∀ x ∈ w.1.pi_order, 0 ≤ x ∧ x < s.i_rows * s.i_cols) ∧
      (∀ v : Int, 0 ≤ v → v < s.i_rows * s.i_cols → w.1.pi_order.count v = 1) ∧
      finished w.1 = .ok false ∧ w.1.b_finished = false := by
  obtain ⟨hv, hf, -⟩ := shuffle_spec rand fuel s seed w hr hc h
  have hco := hv.coherent
  rw [hf] at hco
  rw [mul_comm s.i_rows s.i_cols]
  obtain ⟨h1, h2, h3⟩ := isPermutation_explicit hv.perm (by positivity)
  exact ⟨hv.rows_eq, hv.cols_eq, h1, h2, h3, hco, hf⟩

theorem C2_shuffle_permutation_unsolved_witness :
    (2 : Int) = 2 ∧ (2 : Int) = 2 ∧
      (([1, 0, 3, 2] : List Int).length : Int) = 2 * 2 ∧
      (∀ x ∈ ([1, 0, 3, 2] : List Int), 0 ≤ x ∧ x < 2 * 2) ∧
      (∀ v : Int, 0 ≤ v → v < 2 * 2 → ([1, 0, 3, 2] : List Int).count v = 1) ∧
      finished ⟨2, 2, [1, 0, 3, 2], 3, false, true⟩ = .ok false ∧ false = false :=
  C2_shuffle_permutation_unsolved demoRand 8 ⟨2, 2, [], 9, true, true⟩ 0
    (⟨2, 2, [1, 0, 3, 2], 3, false, true⟩, 7) (by decide) (by decide) rfl

/-- C3: (1) in an unsolved state (with the cached flag coherent) with i_selected = s,
s not none, a click on slot p, p different from s, with s = p+1, p-1, p+cols or p-cols and
both in range, returns; the new order is the old one with the entries at s and p
exchanged and all others unchanged; i_selected becomes p in black-slot mode and -1
otherwise; b_finished becomes true iff the new order is the identity.  (2) On a 4x4
grid, selecting slot 5 and then clicking slot 6 exchanges order[5] and order[6].
(3) On a 4x4 grid with slot 5 selected, a click on slot p changes the order exactly
when p is 1, 4, 6 or 9. -/
theorem C3_adjacent_swap :
    (∀ (rand : Nat → Nat) (fuel : Nat) (w : vout_sys_t × Nat) (i_x i_y v_w v_h s p : Int),
      finished w.1 = .ok w.1.b_finished → finished w.1 = .ok false →
      (w.1.pi_order.length : Int) = w.1.i_cols * w.1.i_rows →
      w.1.i_selected = s → s ≠ -1 → i_pos w.1 i_x i_y v_w v_h = .ok p → p ≠ s →
      (s = p + 1 ∨ s = p - 1 ∨ s = p + w.1.i_cols ∨ s = p - w.1.i_cols) →
      0 ≤ s → s < (w.1.pi_order.length : Int) → 0 ≤ p → p < (w.1.pi_order.length : Int) →
      ∃ w', MouseEvent rand fuel w mouse_var.clicked i_x i_y v_w v_h = .ok w' ∧
        w'.1.pi_order.length = w.1.pi_order.length ∧
        w'.1.pi_order.getD s.toNat 0 = w.1.pi_order.getD p.toNat 0 ∧
        w'.1.pi_order.getD p.toNat 0 = w.1.pi_order.getD s.toNat 0 ∧
        (∀ j : Nat, j ≠ s.toNat → j ≠ p.toNat →
          w'.1.pi_order.getD j 0 = w.1.pi_order.getD j 0) ∧
        w'.1.i_selected = (if w.1.b_blackslot = true then p else -1) ∧
        (w'.1.b_finished = true ↔
          ∀ j : Nat, j < w'.1.pi_order.length → w'.1.pi_order.getD j 0 = (j : Int))) ∧
    (∀ (rand : Nat → Nat) (fuel : Nat) (w : vout_sys_t × Nat)
        (x1 y1 vw1 vh1 x2 y2 vw2 vh2 : Int),
      w.1.i_rows = 4 → w.1.i_cols = 4 → w.1.pi_order.length = 16 →
      finished w.1 = .ok w.1.b_finished → finished w.1 = .ok false →
      w.1.i_selected = -1 →
      i_pos w.1 x1 y1 vw1 vh1 = .ok 5 → i_pos w.1 x2 y2 vw2 vh2 = .ok 6 →
      ∃ w1 w2, MouseEvent rand fuel w mouse_var.clicked x1 y1 vw1 vh1 = .ok w1 ∧
        MouseEvent rand fuel w1 mouse_var.clicked x2 y2 vw2 vh2 = .ok w2 ∧
        w1.1.i_selected = 5 ∧
        w2.1.pi_order.getD 5 0 = w.1.pi_order.getD 6 0 ∧
        w2.1.pi_order.getD 6 0 = w.1.pi_order.getD 5 0 ∧
        ∀ j : Nat, j ≠ 5 → j ≠ 6 → w2.1.pi_order.getD j 0 = w.1.pi_order.getD j 0) ∧
    (∀ (rand : Nat → Nat) (fuel : Nat) (w : vout_sys_t × Nat) (i_x i_y v_w v_h p : Int),
      w.1.i_rows = 4 → w.1.i_cols = 4 → IsPermutation 16 w.1.pi_order →
      finished w.1 = .ok w.1.b_finished → finished w.1 = .ok false →
      w.1.i_selected = 5 → i_pos w.1 i_x i_y v_w v_h = .ok p → 0 ≤ p → p < 16 →
      ∃ w', MouseEvent rand fuel w mouse_var.clicked i_x i_y v_w v_h = .ok w' ∧
        (w'.1.pi_order ≠ w.1.pi_order ↔ p = 1 ∨ p = 4 ∨ p = 6 ∨ p = 9)) := by
  refine ⟨?_, ?_, ?_⟩
  · intro rand fuel w i_x i_y v_w v_h s p hcoh hun hlen hs hsel hp hne hadj hs0 hs1 hp0 hp1
    have hfin : w.1.b_finished = false := by
      rw [hun] at hcoh; simpa using hcoh.symm
    subst hs
    obtain ⟨order, b, hex, -, hiff, hme⟩ := mouseEvent_swap_result rand fuel w i_x i_y v_w v_h p
      hp hfin hsel (fun h => hne h.1.symm) hadj hlen hs0 hs1 hp0 hp1
    refine ⟨_, hme, exchange_length hex, ?_, ?_, ?_, rfl, hiff⟩
    · show order.getD _ 0 = _
      rw [exchange_getD hex]
      have : w.1.i_selected.toNat ≠ p.toNat := by omega
      simp [this]
    · show order.getD _ 0 = _
      rw [exchange_getD hex, if_pos rfl]
    · intro j hj1 hj2
      show order.getD _ 0 = _
      rw [exchange_getD hex, if_neg hj2, if_neg hj1]
  · intro rand fuel w x1 y1 vw1 vh1 x2 y2 vw2 vh2 hr hc hlen hcoh hun hsel hp5 hp6
    have hfin : w.1.b_finished = false := by
      rw [hun] at hcoh; simpa using hcoh.symm
    have h1 := mouseEvent_select rand fuel w x1 y1 vw1 vh1 5 hp5 hfin hsel
    have hp6' : i_pos ({ w.1 with i_selected := 5 }, w.2).1 x2 y2 vw2 vh2 = .ok 6 := hp6
    obtain ⟨order, b, hex, -, -, hme⟩ := mouseEvent_swap_result rand fuel
      ({ w.1 with i_selected := 5 }, w.2) x2 y2 vw2 vh2 6 hp6' hfin
      (by show (5 : Int) ≠ -1; decide)
      (fun h => absurd h.1 (by show ¬ (5 : Int) = 6; decide))
      (Or.inr (Or.inl (by show (5 : Int) = 6 - 1; decide)))
      (by show ((w.1.pi_order.length : Nat) : Int) = _; rw [hlen, hr, hc]; rfl)
      (by show (0 : Int) ≤ 5; decide)
      (by show (5 : Int) < (w.1.pi_order.length : Int); rw [hlen]; decide)
      (by decide) (by show (6 : Int) < (w.1.pi_order.length : Int); rw [hlen]; decide)
    have hex' : exchange w.1.pi_order 5 6 = .ok order := hex
    refine ⟨_, _, h1, hme, rfl, ?_, ?_, ?_⟩
    · show order.getD 5 0 = _
      rw [exchange_getD hex']; rfl
    · show order.getD 6 0 = _
      rw [exchange_getD hex']; rfl
    · intro j hj5 hj6
      show order.getD j 0 = _
      rw [exchange_getD hex']
      have e6 : (6 : Int).toNat = 6 := rfl
      have e5 : (5 : Int).toNat = 5 := rfl
      rw [e6, e5, if_neg hj6, if_neg hj5]
  · intro rand fuel w i_x i_y v_w v_h p hr hc hperm hcoh hun hsel hp hp0 hp1
    have hfin : w.1.b_finished = false := by
      rw [hun] at hcoh; simpa using hcoh.symm
    have hlen : w.1.pi_order.length = 16 := by rw [isPermutation_length hperm]; rfl
    have hsel1 : w.1.i_selected ≠ -1 := by rw [hsel]; decide
    have hadj_iff : adjacent w.1 p ↔ (p = 1 ∨ p = 4 ∨ p = 6 ∨ p = 9) := by
      unfold adjacent; rw [hsel, hc]; omega
    by_cases hdes : w.1.i_selected = p ∧ w.1.b_blackslot = false
    · refine ⟨_, mouseEvent_deselect rand fuel w i_x i_y v_w v_h p hp hfin hsel1 hdes.1 hdes.2, ?_⟩
      have : p = 5 := by rw [← hdes.1, hsel]
      constructor
      · intro h; exact absurd rfl h
      · intro h; omega
    by_cases hadj : adjacent w.1 p
    · obtain ⟨order, b, hex, -, -, hme⟩ := mouseEvent_swap_result rand fuel w i_x i_y v_w v_h p
        hp hfin hsel1 hdes hadj (by rw [hlen, hr, hc]; rfl) (by rw [hsel]; decide)
        (by rw [hsel, hlen]; decide) hp0 (by rw [hlen]; exact hp1)
      refine ⟨_, hme, ?_⟩
      constructor
      · intro _; exact hadj_iff.1 hadj
      · intro h5
        exact exchange_ne_of_nodup (isPermutation_nodup hperm) (by rw [hsel]; omega) hex
    · refine ⟨_, mouseEvent_noop rand fuel w i_x i_y v_w v_h p hp hfin hsel1 hdes hadj, ?_⟩
      constructor
      · intro h; exact absurd rfl h
      · intro h; exact absurd (hadj_iff.2 h) hadj

theorem C3_adjacent_swap_witness :
    ∃ w', MouseEvent demoRand 0 (⟨4, 4, demoOrder16, 5, false, false⟩, 0) mouse_var.clicked
        2 1 4 4 = .ok w' ∧
      w'.1.pi_order.length = demoOrder16.length ∧
      w'.1.pi_order.getD (5 : Int).toNat 0 = demoOrder16.getD (6 : Int).toNat 0 ∧
      w'.1.pi_order.getD (6 : Int).toNat 0 = demoOrder16.getD (5 : Int).toNat 0 ∧
      (∀ j : Nat, j ≠ (5 : Int).toNat → j ≠ (6 : Int).toNat →
        w'.1.pi_order.getD j 0 = demoOrder16.getD j 0) ∧
      w'.1.i_selected = (if false = true then 6 else -1) ∧
      (w'.1.b_finished = true ↔
        ∀ j : Nat, j < w'.1.pi_order.length → w'.1.pi_order.getD j 0 = (j : Int)) :=
  C3_adjacent_swap.1 demoRand 0 (⟨4, 4, demoOrder16, 5, false, false⟩, 0) 2 1 4 4 5 6
    rfl rfl rfl rfl (by decide) rfl (by decide) (Or.inr (Or.inl (by decide)))
    (by decide) (by decide) (by decide) (by decide)

/-- C4 as stated fails: the claim is about every state reachable from Create by in-frame
clicks and needs the cached flag to agree with finished() in all of them.  On a 2x2
grid the state with order [1, 0, 3, 2] and slot 0 selected is reached by one in-frame
click; there the in-frame click at y = 1073741824 of a frame 2147483647 high makes the
`int` product rows * y overflow: the handler computes slot -2, the adjacency test passes
(i_selected == i_pos + i_cols) and the exchange accesses pi_order[-2], outside the
array, before b_finished is recomputed.  The program fixes neither the order nor the
flag after this click. -/
theorem C4_counterexample :
    Reachable demoRand 2 2 false (⟨2, 2, [1, 0, 3, 2], 0, false, false⟩, 7) ∧
      (0 : Int) ≤ 0 ∧ (0 : Int) < 1 ∧
      (0 : Int) ≤ 1073741824 ∧ (1073741824 : Int) < 2147483647 ∧
      i_pos ⟨2, 2, [1, 0, 3, 2], 0, false, false⟩ 0 1073741824 1 2147483647 = .ok (-2) ∧
      adjacent ⟨2, 2, [1, 0, 3, 2], 0, false, false⟩ (-2) ∧
      MouseEvent demoRand 0 (⟨2, 2, [1, 0, 3, 2], 0, false, false⟩, 7) mouse_var.clicked
        0 1073741824 1 2147483647 = .error .outOfBounds :=
  ⟨Reachable.click 0 (⟨2, 2, [1, 0, 3, 2], -1, false, false⟩, 7) _ mouse_var.clicked 0 0 2 2
      (Reachable.create 8 0 0 true _ rfl) (by decide) (by decide) (by decide) (by decide)
      (by decide) (by decide) rfl,
    by decide, by decide, by decide, by decide, by decide, by decide, by decide⟩

/-- C4 amended: for rows, cols >= 1 with rows*cols <= INT_MAX, in every state reachable
from Create by mouse events whose coordinates lie in the frame and whose products
rows*y and cols*x fit an int, the cached flag b_finished equals finished() of the
order; and if the order is solved (order[i] == i for all i), a click anywhere in a
frame is exactly one call of shuffle on the current state: no swap and no selection
change of its own, whichever slot is hit. -/
theorem C4_click_on_solved_reshuffles (rand : Nat → Nat) (rows cols : Int) (blackslot : Bool)
    (w : vout_sys_t × Nat) (hr : 1 ≤ rows) (hc : 1 ≤ cols) (hn : rows * cols ≤ INT_MAX)
    (hreach : Reachable rand rows cols blackslot w) :
    finished w.1 = .ok w.1.b_finished ∧
      ((∀ j : Nat, j < w.1.pi_order.length → w.1.pi_order.getD j 0 = (j : Int)) →
        ∀ (fuel : Nat) (i_x i_y v_w v_h : Int),
          0 ≤ i_x → i_x < v_w → 0 ≤ i_y → i_y < v_h →
          MouseEvent rand fuel w mouse_var.clicked i_x i_y v_w v_h =
            shuffle rand fuel w.1 w.2) := by
  have hv := reachable_valid rand rows cols blackslot hr hc (by rw [mul_comm]; exact hn)
    w hreach
  refine ⟨hv.coherent, ?_⟩
  intro hsolved fuel i_x i_y v_w v_h hx0 hx1 hy0 hy1
  have hlen : (w.1.pi_order.length : Int) = w.1.i_cols * w.1.i_rows := by
    rw [isPermutation_length hv.perm, hv.cols_eq, hv.rows_eq]
    have : 0 ≤ cols * rows := by positivity
    omega
  obtain ⟨b, hb, hiff⟩ := finished_spec w.1 hlen
  have hbt : b = true := hiff.2 hsolved
  have hfin : w.1.b_finished = true := by
    have := hv.coherent
    rw [hb, hbt] at this
    simpa using this.symm
  obtain ⟨p, hp⟩ := i_pos_returns w.1 i_x i_y v_w v_h (by omega) (by omega)
  exact mouseEvent_solved rand fuel w i_x i_y v_w v_h p hp hfin

theorem C4_click_on_solved_reshuffles_witness :
    finished ⟨2, 1, [0, 1], -1, true, false⟩ = .ok true ∧
      ((∀ j : Nat, j < ([0, 1] : List Int).length → ([0, 1] : List Int).getD j 0 = (j : Int)) →
        ∀ (fuel : Nat) (i_x i_y v_w v_h : Int),
          0 ≤ i_x → i_x < v_w → 0 ≤ i_y → i_y < v_h →
          MouseEvent demoRand fuel (⟨2, 1, [0, 1], -1, true, false⟩, 2) mouse_var.clicked
              i_x i_y v_w v_h =
            shuffle demoRand fuel ⟨2, 1, [0, 1], -1, true, false⟩ 2) :=
  C4_click_on_solved_reshuffles demoRand 1 2 false (⟨2, 1, [0, 1], -1, true, false⟩, 2)
    (by decide) (by decide) (by decide) demo_reachable_solved

/-- C7: for rows, cols >= 1, after shuffle returns: in black-slot mode i_selected is a
display slot in [0, rows*cols) whose entry is (cols-1)*rows, and no other slot holds
that value; with black-slot mode off i_selected is -1. -/
theorem C7_shuffle_selection (rand : Nat → Nat) (fuel : Nat) (s : vout_sys_t)
    (seed : Nat) (w : vout_sys_t × Nat) (hr : 1 ≤ s.i_rows) (hc : 1 ≤ s.i_cols)
    (h : shuffle rand fuel s seed = .ok w) :
    (s.b_blackslot = true →
        0 ≤ w.1.i_selected ∧ w.1.i_selected < s.i_rows * s.i_cols ∧
        load w.1.pi_order w.1.i_selected = .ok ((s.i_cols - 1) * s.i_rows) ∧
        ∀ j : Int, load w.1.pi_order j = .ok ((s.i_cols - 1) * s.i_rows) → j = w.1.i_selected) ∧
      (s.b_blackslot = false → w.1.i_selected = -1) := by
  obtain ⟨hv, -, hoff⟩ := shuffle_spec rand fuel s seed w hr hc h
  refine ⟨fun hb => ?_, hoff⟩
  have hl := hv.hole hb
  obtain ⟨h0, h1, -⟩ := load_eq_ok.1 hl
  refine ⟨h0, ?_, hl, fun j hj => load_inj_of_nodup (isPermutation_nodup hv.perm) hj hl⟩
  rw [isPermutation_length hv.perm] at h1
  rw [mul_comm]
  have : 0 ≤ s.i_cols * s.i_rows := by positivity
  omega

theorem C7_shuffle_selection_witness :
    (true = true →
        (0 : Int) ≤ 3 ∧ (3 : Int) < 2 * 2 ∧
        load ([1, 0, 3, 2] : List Int) 3 = .ok ((2 - 1) * 2) ∧
        ∀ j : Int, load ([1, 0, 3, 2] : List Int) j = .ok ((2 - 1) * 2) → j = 3) ∧
      (true = false → (3 : Int) = -1) :=
  C7_shuffle_selection demoRand 8 ⟨2, 2, [], 9, true, true⟩ 0
    (⟨2, 2, [1, 0, 3, 2], 3, false, true⟩, 7) (by decide) (by decide) rfl

/-- C8 as stated fails: in black-slot mode on a 1x2 grid Create gives the order [1, 0]
with the hole, origin (cols-1)*rows = 1, at slot 0.  The in-frame click at
x = 1073741824 of a frame 1073741825 wide makes the `int` product cols * x overflow:
the handler computes slot -1, the adjacency test passes (i_selected == i_pos + 1), the
exchange accesses pi_order[-1], outside the array, and the handler goes on to set
i_selected = -1.  No state with order[i_selected] == (cols-1)*rows follows this click. -/
theorem C8_counterexample :
    Reachable demoRand 1 2 true (⟨2, 1, [1, 0], 0, false, true⟩, 2) ∧
      (0 : Int) ≤ 1073741824 ∧ (1073741824 : Int) < 1073741825 ∧
      (0 : Int) ≤ 0 ∧ (0 : Int) < 1 ∧
      i_pos ⟨2, 1, [1, 0], 0, false, true⟩ 1073741824 0 1073741825 1 = .ok (-1) ∧
      adjacent ⟨2, 1, [1, 0], 0, false, true⟩ (-1) ∧
      MouseEvent demoRand 0 (⟨2, 1, [1, 0], 0, false, true⟩, 2) mouse_var.clicked
        1073741824 0 1073741825 1 = .error .outOfBounds :=
  ⟨Reachable.create 3 0 0 true _ rfl, by decide, by decide, by decide, by decide, by decide,
    by decide, by decide⟩

/-- C8 amended: in black-slot mode, for rows, cols >= 1 with rows*cols <= INT_MAX, in
every state reachable from Create by mouse events whose coordinates lie in the frame
and whose products rows*y and cols*x fit an int, i_selected is not -1 and
order[i_selected] == (cols-1)*rows; and every mouse event that changes the order
without a reshuffle is a click that exchanges the entry of the hole with the entry of
the clicked slot, after which the hole is the clicked slot. -/
theorem C8_hole_invariant (rand : Nat → Nat) (rows cols : Int) (w : vout_sys_t × Nat)
    (hr : 1 ≤ rows) (hc : 1 ≤ cols) (hn : rows * cols ≤ INT_MAX)
    (hreach : Reachable rand rows cols true w) :
    w.1.i_selected ≠ -1 ∧ load w.1.pi_order w.1.i_selected = .ok ((cols - 1) * rows) ∧
      ∀ (fuel : Nat) (psz_var : mouse_var) (i_x i_y v_w v_h : Int) (w' : vout_sys_t × Nat),
        w.1.b_finished = false →
        MouseEvent rand fuel w psz_var i_x i_y v_w v_h = .ok w' →
        w'.1.pi_order ≠ w.1.pi_order →
        ∃ p, i_pos w.1 i_x i_y v_w v_h = .ok p ∧
          exchange w.1.pi_order w.1.i_selected p = .ok w'.1.pi_order ∧
          w'.1.i_selected = p ∧ load w'.1.pi_order p = .ok ((cols - 1) * rows) := by
  have hv := reachable_valid rand rows cols true hr hc (by rw [mul_comm]; exact hn) w hreach
  have hl := hv.hole rfl
  have hne : w.1.i_selected ≠ -1 := by
    intro h
    rw [h, load_eq_ok] at hl
    omega
  refine ⟨hne, hl, ?_⟩
  intro fuel psz_var i_x i_y v_w v_h w' hfin hme hch
  obtain ⟨-, p, hp, -, -, -, hex, hsel⟩ :=
    mouseEvent_order_changed rand fuel w w' psz_var i_x i_y v_w v_h hfin hme hch
  rw [hv.bs_eq, if_pos rfl] at hsel
  refine ⟨p, hp, hex, hsel, ?_⟩
  obtain ⟨-, -, hp0, hp1, -⟩ := exchange_eq_ok.1 hex
  obtain ⟨-, -, hget⟩ := load_eq_ok.1 hl
  rw [load_eq_ok]
  refine ⟨hp0, by rw [exchange_length hex]; exact hp1, ?_⟩
  show w'.1.pi_order.getD p.toNat 0 = _
  rw [exchange_getD hex, if_pos rfl]
  exact hget

theorem C8_hole_invariant_witness :
    (3 : Int) ≠ -1 ∧ load ([1, 0, 3, 2] : List Int) 3 = .ok ((2 - 1) * 2) ∧
      ∀ (fuel : Nat) (psz_var : mouse_var) (i_x i_y v_w v_h : Int) (w' : vout_sys_t × Nat),
        false = false →
        MouseEvent demoRand fuel (⟨2, 2, [1, 0, 3, 2], 3, false, true⟩, 7) psz_var
          i_x i_y v_w v_h = .ok w' →
        w'.1.pi_order ≠ [1, 0, 3, 2] →
        ∃ p, i_pos ⟨2, 2, [1, 0, 3, 2], 3, false, true⟩ i_x i_y v_w v_h = .ok p ∧
          exchange [1, 0, 3, 2] 3 p = .ok w'.1.pi_order ∧
          w'.1.i_selected = p ∧ load w'.1.pi_order p = .ok ((2 - 1) * 2) :=
  C8_hole_invariant demoRand 2 2 (⟨2, 2, [1, 0, 3, 2], 3, false, true⟩, 7)
    (by decide) (by decide) (by decide) demo_reachable_blackslot

/-- C9: (1) in an unsolved state (cached flag coherent) with i_selected = s, s not none,
a click on a slot p that is none of s+1, s-1, s+cols, s-cols, and that differs from s or
equals s in black-slot mode, returns the state unchanged (all fields, and no random
value is drawn).  (2) A mouse event changes the order only if the grid is solved or it
is an adjacent-swap click (unsolved, a slot selected, the clicked slot passes the
adjacency test and is not a deselecting click).  (3) On a 4x4 grid with slot 5
selected, clicks on 0, 2, 3, 7, 8, 10..15 change nothing. -/
theorem C9_noop_clicks :
    (∀ (rand : Nat → Nat) (fuel : Nat) (w : vout_sys_t × Nat) (i_x i_y v_w v_h s p : Int),
      finished w.1 = .ok w.1.b_finished → finished w.1 = .ok false →
      w.1.i_selected = s → s ≠ -1 → i_pos w.1 i_x i_y v_w v_h = .ok p →
      p ≠ s + 1 → p ≠ s - 1 → p ≠ s + w.1.i_cols → p ≠ s - w.1.i_cols →
      (p ≠ s ∨ (p = s ∧ w.1.b_blackslot = true)) →
      MouseEvent rand fuel w mouse_var.clicked i_x i_y v_w v_h = .ok w) ∧
    (∀ (rand : Nat → Nat) (fuel : Nat) (w w' : vout_sys_t × Nat) (psz_var : mouse_var)
        (i_x i_y v_w v_h : Int),
      finished w.1 = .ok w.1.b_finished →
      MouseEvent rand fuel w psz_var i_x i_y v_w v_h = .ok w' →
      w'.1.pi_order ≠ w.1.pi_order →
      finished w.1 = .ok true ∨
        (finished w.1 = .ok false ∧ psz_var = mouse_var.clicked ∧
          ∃ p, i_pos w.1 i_x i_y v_w v_h = .ok p ∧ w.1.i_selected ≠ -1 ∧
            ¬ (w.1.i_selected = p ∧ w.1.b_blackslot = false) ∧
            (w.1.i_selected = p + 1 ∨ w.1.i_selected = p - 1 ∨
              w.1.i_selected = p + w.1.i_cols ∨ w.1.i_selected = p - w.1.i_cols) ∧
            exchange w.1.pi_order w.1.i_selected p = .ok w'.1.pi_order)) ∧
    (∀ (rand : Nat → Nat) (fuel : Nat) (w : vout_sys_t × Nat) (i_x i_y v_w v_h p : Int),
      w.1.i_rows = 4 → w.1.i_cols = 4 →
      finished w.1 = .ok w.1.b_finished → finished w.1 = .ok false →
      w.1.i_selected = 5 → i_pos w.1 i_x i_y v_w v_h = .ok p →
      p ∈ ([0, 2, 3, 7, 8, 10, 11, 12, 13, 14, 15] : List Int) →
      MouseEvent rand fuel w mouse_var.clicked i_x i_y v_w v_h = .ok w) := by
  have key : ∀ (rand : Nat → Nat) (fuel : Nat) (w : vout_sys_t × Nat)
      (i_x i_y v_w v_h s p : Int),
      finished w.1 = .ok w.1.b_finished → finished w.1 = .ok false →
      w.1.i_selected = s → s ≠ -1 → i_pos w.1 i_x i_y v_w v_h = .ok p →
      p ≠ s + 1 → p ≠ s - 1 → p ≠ s + w.1.i_cols → p ≠ s - w.1.i_cols →
      (p ≠ s ∨ (p = s ∧ w.1.b_blackslot = true)) →
      MouseEvent rand fuel w mouse_var.clicked i_x i_y v_w v_h = .ok w := by
    intro rand fuel w i_x i_y v_w v_h s p hcoh hun hs hsel hp h1 h2 h3 h4 h5
    have hfin : w.1.b_finished = false := by
      rw [hun] at hcoh; simpa using hcoh.symm
    subst hs
    apply mouseEvent_noop rand fuel w i_x i_y v_w v_h p hp hfin hsel
    · rintro ⟨ha, hb⟩
      rcases h5 with h5 | ⟨-, h5⟩
      · exact h5 ha.symm
      · rw [hb] at h5; cases h5
    · unfold adjacent
      omega
  refine ⟨key, ?_, ?_⟩
  · intro rand fuel w w' psz_var i_x i_y v_w v_h hcoh hme hch
    cases hb : w.1.b_finished with
    | true => left; rw [hcoh, hb]
    | false =>
      right
      obtain ⟨hclk, p, hp, hsel, hdes, hadj, hex, -⟩ :=
        mouseEvent_order_changed rand fuel w w' psz_var i_x i_y v_w v_h hb hme hch
      exact ⟨by rw [hcoh, hb], hclk, p, hp, hsel, hdes, hadj, hex⟩
  · intro rand fuel w i_x i_y v_w v_h p hr hc hcoh hun hsel hp hmem
    have hc4 := hc
    simp only [List.mem_cons, List.mem_singleton, List.not_mem_nil, or_false] at hmem
    apply key rand fuel w i_x i_y v_w v_h 5 p hcoh hun hsel (by decide) hp <;>
      first
      | (left; omega)
      | omega

theorem C9_noop_clicks_witness :
    MouseEvent demoRand 0 (⟨4, 4, demoOrder16, 5, false, false⟩, 0) mouse_var.clicked 3 2 4 4 =
      .ok (⟨4, 4, demoOrder16, 5, false, false⟩, 0) :=
  C9_noop_clicks.1 demoRand 0 (⟨4, 4, demoOrder16, 5, false, false⟩, 0) 3 2 4 4 5 11
    rfl rfl rfl (by decide) rfl (by decide) (by decide) (by decide) (by decide)
    (Or.inl (by decide))

/-- C10: with black-slot mode off, in an unsolved state (cached flag coherent) with
i_selected == -1, a click on slot p returns a state with i_selected = p and order,
b_finished and every other field unchanged; a second click on the same slot p then
returns the original state exactly. -/
theorem C10_select_deselect_roundtrip (rand : Nat → Nat) (fuel : Nat) (w : vout_sys_t × Nat)
    (x1 y1 vw1 vh1 x2 y2 vw2 vh2 p : Int) (hbs : w.1.b_blackslot = false)
    (hcoh : finished w.1 = .ok w.1.b_finished) (hun : finished w.1 = .ok false)
    (hsel : w.1.i_selected = -1) (hp1 : i_pos w.1 x1 y1 vw1 vh1 = .ok p)
    (hp2 : i_pos w.1 x2 y2 vw2 vh2 = .ok p) :
    ∃ w1, MouseEvent rand fuel w mouse_var.clicked x1 y1 vw1 vh1 = .ok w1 ∧
      w1 = ({ w.1 with i_selected := p }, w.2) ∧
      w1.1.i_selected = p ∧ w1.1.pi_order = w.1.pi_order ∧ w1.1.b_finished = w.1.b_finished ∧
      MouseEvent rand fuel w1 mouse_var.clicked x2 y2 vw2 vh2 = .ok w := by
  have hfin : w.1.b_finished = false := by
    rw [hun] at hcoh; simpa using hcoh.symm
  refine ⟨_, mouseEvent_select rand fuel w x1 y1 vw1 vh1 p hp1 hfin hsel, rfl, rfl, rfl, rfl, ?_⟩
  have hp2' : i_pos ({ w.1 with i_selected := p }, w.2).1 x2 y2 vw2 vh2 = .ok p := hp2
  obtain ⟨s, seed⟩ := w
  simp only at hbs hfin hsel hp2'
  by_cases hpn : p = -1
  · rw [mouseEvent_select rand fuel ({ s with i_selected := p }, seed) x2 y2 vw2 vh2 p hp2'
      hfin hpn]
    subst hpn
    show Except.ok ({ s with i_selected := -1 }, seed) = Except.ok (s, seed)
    rw [← hsel]
  · rw [mouseEvent_deselect rand fuel ({ s with i_selected := p }, seed) x2 y2 vw2 vh2 p hp2'
      hfin hpn rfl hbs]
    show Except.ok ({ s with i_selected := -1 }, seed) = Except.ok (s, seed)
    rw [← hsel]

theorem C10_select_deselect_roundtrip_witness :
    ∃ w1, MouseEvent demoRand 0 (⟨4, 4, demoOrder16, -1, false, false⟩, 0) mouse_var.clicked
        1 1 4 4 = .ok w1 ∧
      w1 = (⟨4, 4, demoOrder16, 5, false, false⟩, 0) ∧
      w1.1.i_selected = 5 ∧ w1.1.pi_order = demoOrder16 ∧ w1.1.b_finished = false ∧
      MouseEvent demoRand 0 w1 mouse_var.clicked 3 3 8 8 =
        .ok (⟨4, 4, demoOrder16, -1, false, false⟩, 0) :=
  C10_select_deselect_roundtrip demoRand 0 (⟨4, 4, demoOrder16, -1, false, false⟩, 0)
    1 1 4 4 3 3 8 8 5 rfl rfl rfl rfl rfl rfl

/-- C11: finished() returns true iff order[i] == i for every i in [0, rows*cols); it
returns (true or false) whenever the order has rows*cols entries.  For rows = cols = 2
the order [1,0,3,2] is not solved, and exchanging entries 0,1 and then entries 2,3
yields [0,1,2,3], which is solved. -/
theorem C11_finished_iff_identity :
    (∀ s : vout_sys_t, finished s = .ok true ↔
      ∀ i : Int, 0 ≤ i → i < s.i_cols * s.i_rows → load s.pi_order i = .ok i) ∧
    (∀ s : vout_sys_t, (s.pi_order.length : Int) = s.i_cols * s.i_rows →
      ∃ b, finished s = .ok b) ∧
    (∀ (sel : Int) (fin bs : Bool),
      finished ⟨2, 2, [1, 0, 3, 2], sel, fin, bs⟩ = .ok false ∧
      exchange [1, 0, 3, 2] 0 1 = .ok [0, 1, 3, 2] ∧
      exchange [0, 1, 3, 2] 2 3 = .ok [0, 1, 2, 3] ∧
      finished ⟨2, 2, [0, 1, 2, 3], sel, fin, bs⟩ = .ok true) := by
  refine ⟨finished_true_iff, ?_, ?_⟩
  · intro s hlen
    obtain ⟨b, hb, -⟩ := finished_spec s hlen
    exact ⟨b, hb⟩
  · intro sel fin bs
    exact ⟨rfl, rfl, rfl, rfl⟩

theorem C11_finished_iff_identity_witness :
    ∃ b, finished ⟨2, 2, [1, 0, 3, 2], -1, false, false⟩ = .ok b :=
  C11_finished_iff_identity.2.1 ⟨2, 2, [1, 0, 3, 2], -1, false, false⟩ (by decide)

/-- C12 as stated fails: on a grid of 128 rows and 4 columns the in-frame click at
x = 0, y = 16777216 of a frame 1 wide and 33554432 high makes the `int` product
rows * y = 2147483648 overflow; the handler computes slot -256, whereas
cols * floor(rows*y / height) + floor(cols*x / width) is 256, and -256 is no slot of
[0, rows*cols). -/
theorem C12_counterexample :
    (0 : Int) ≤ 0 ∧ (0 : Int) < 1 ∧ (0 : Int) ≤ 16777216 ∧ (16777216 : Int) < 33554432 ∧
      i_pos ⟨4, 128, (List.range 512).map Int.ofNat, -1, true, false⟩ 0 16777216 1 33554432
        = .ok (-256) ∧
      4 * Int.fdiv (128 * 16777216) 33554432 + Int.fdiv (4 * 0) 1 = 256 ∧
      ¬ ((0 : Int) ≤ -256) :=
  ⟨by decide, by decide, by decide, by decide, rfl, by decide, by decide⟩

/-- C12 amended: for rows, cols >= 1 with rows*cols <= INT_MAX and click coordinates
with 0 <= x < width, 0 <= y < height (so width, height > 0) whose products rows*y and
cols*x fit an int (as they do whenever rows*height and cols*width do), the slot
computed by MouseEvent is cols * floor(rows*y / height) + floor(cols*x / width), with
0 <= floor(rows*y/height) < rows and 0 <= floor(cols*x/width) < cols, so it is the
row-major index of a slot in [0, rows*cols). -/
theorem C12_click_slot_mapping (s : vout_sys_t) (i_x i_y v_w v_h : Int) (hr : 1 ≤ s.i_rows)
    (hc : 1 ≤ s.i_cols) (hn : s.i_rows * s.i_cols ≤ INT_MAX)
    (hx0 : 0 ≤ i_x) (hx1 : i_x < v_w) (hy0 : 0 ≤ i_y) (hy1 : i_y < v_h)
    (hby : s.i_rows * i_y ≤ INT_MAX) (hbx : s.i_cols * i_x ≤ INT_MAX) :
    ∃ p, i_pos s i_x i_y v_w v_h = .ok p ∧
      p = s.i_cols * Int.fdiv (s.i_rows * i_y) v_h + Int.fdiv (s.i_cols * i_x) v_w ∧
      0 ≤ Int.fdiv (s.i_rows * i_y) v_h ∧ Int.fdiv (s.i_rows * i_y) v_h < s.i_rows ∧
      0 ≤ Int.fdiv (s.i_cols * i_x) v_w ∧ Int.fdiv (s.i_cols * i_x) v_w < s.i_cols ∧
      0 ≤ p ∧ p < s.i_rows * s.i_cols := by
  obtain ⟨p, h1, h2, h3, h4, h5, h6, h7, h8⟩ :=
    i_pos_in_frame s i_x i_y v_w v_h hr hc (by rw [mul_comm]; exact hn) hx0 hx1 hy0 hy1
      hby hbx
  rw [Int.fdiv_eq_ediv _ (by omega : 0 ≤ v_h), Int.fdiv_eq_ediv _ (by omega : 0 ≤ v_w),
    mul_comm s.i_rows s.i_cols]
  exact ⟨p, h1, h2, h3, h4, h5, h6, h7, h8⟩

theorem C12_click_slot_mapping_witness :
    ∃ p, i_pos ⟨4, 4, demoOrder16, -1, false, false⟩ 639 479 640 480 = .ok p ∧
      p = 4 * Int.fdiv (4 * 479) 480 + Int.fdiv (4 * 639) 640 ∧
      0 ≤ Int.fdiv (4 * 479) 480 ∧ Int.fdiv (4 * 479) 480 < 4 ∧
      0 ≤ Int.fdiv (4 * 639) 640 ∧ Int.fdiv (4 * 639) 640 < 4 ∧
      0 ≤ p ∧ p < 4 * 4 :=
  C12_click_slot_mapping ⟨4, 4, demoOrder16, -1, false, false⟩ 639 479 640 480
    (by decide) (by decide) (by decide) (by decide) (by decide) (by decide) (by decide)
    (by decide) (by decide)

/-- C13 as stated fails: on a 2x2 grid in black-slot mode Create returns with slot 3
selected, whose origin id is 2 = (cols-1)*rows, while the bottom-right-most tile has the
row-major index (rows-1)*cols + (cols-1) = rows*cols - 1 = 3. -/
theorem C13_counterexample :
    Create demoRand 8 2 2 true 9 true 0 = .ok (⟨2, 2, [1, 0, 3, 2], 3, false, true⟩, 7) ∧
      load ([1, 0, 3, 2] : List Int) 3 = .ok ((2 - 1) * 2) ∧
      ((2 : Int) - 1) * 2 ≠ (2 - 1) * 2 + (2 - 1) ∧ ((2 : Int) - 1) * 2 ≠ 2 * 2 - 1 := by
  decide

/-- C13 amended: for rows, cols >= 1, when shuffle returns in black-slot mode the origin
id o of the slot it selects is (cols-1)*rows, a tile index in [0, rows*cols); it is the
bottom-right-most index rows*cols - 1 exactly when rows = 1; and on a square grid
(rows = cols) it is the bottom-left tile, row rows-1 and column 0 of the row-major
numbering. -/
theorem C13_hole_origin (rand : Nat → Nat) (fuel : Nat) (s : vout_sys_t) (seed : Nat)
    (w : vout_sys_t × Nat) (hr : 1 ≤ s.i_rows) (hc : 1 ≤ s.i_cols)
    (hbs : s.b_blackslot = true) (h : shuffle rand fuel s seed = .ok w) :
    ∃ o, load w.1.pi_order w.1.i_selected = .ok o ∧ o = (s.i_cols - 1) * s.i_rows ∧
      0 ≤ o ∧ o < s.i_rows * s.i_cols ∧
      (o = s.i_rows * s.i_cols - 1 ↔ s.i_rows = 1) ∧
      (s.i_rows = s.i_cols → o / s.i_cols = s.i_rows - 1 ∧ o % s.i_cols = 0) := by
  obtain ⟨hv, -, -⟩ := shuffle_spec rand fuel s seed w hr hc h
  refine ⟨_, hv.hole hbs, rfl, mul_nonneg (by omega) (by omega), ?_, ?_, ?_⟩
  · have e : (s.i_cols - 1) * s.i_rows = s.i_rows * s.i_cols - s.i_rows := by ring
    omega
  · have e : (s.i_cols - 1) * s.i_rows = s.i_rows * s.i_cols - s.i_rows := by ring
    omega
  · intro heq
    rw [heq]
    constructor
    · exact Int.mul_ediv_cancel _ (by omega)
    · exact Int.mul_emod_left _ _

theorem C13_hole_origin_witness :
    ∃ o, load ([1, 0, 3, 2] : List Int) 3 = .ok o ∧ o = (2 - 1) * 2 ∧
      0 ≤ o ∧ o < 2 * 2 ∧ (o = 2 * 2 - 1 ↔ (2 : Int) = 1) ∧
      ((2 : Int) = 2 → o / 2 = 2 - 1 ∧ o % 2 = 0) :=
  C13_hole_origin demoRand 8 ⟨2, 2, [], 9, true, true⟩ 0
    (⟨2, 2, [1, 0, 3, 2], 3, false, true⟩, 7) (by decide) (by decide) rfl rfl

/-- C14: the two-entry exchange of the click handler is an involution: for every order
and every pair of in-range slots a, b, the exchange returns, and exchanging the same
two slots of the result returns the original order. -/
theorem C14_swap_involution (order : List Int) (a b : Int) (ha0 : 0 ≤ a)
    (ha1 : a < (order.length : Int)) (hb0 : 0 ≤ b) (hb1 : b < (order.length : Int)) :
    ∃ o1, exchange order a b = .ok o1 ∧ exchange o1 a b = .ok order := by
  have h1 := exchange_eq_ok.2 ⟨ha0, ha1, hb0, hb1, rfl⟩
  have hl1 := exchange_length h1
  refine ⟨_, h1, ?_⟩
  have h2 := exchange_eq_ok.2 ⟨ha0, by rw [hl1]; exact ha1, hb0, by rw [hl1]; exact hb1, rfl⟩
  rw [h2]
  congr 1
  have hl2 := exchange_length h2
  apply List.ext_getElem (by rw [hl2, hl1])
  intro n hn1 hn2
  have e1 : ∀ (l : List Int) (hn : n < l.length), l[n] = l.getD n 0 := by
    intro l hn
    simp [List.getD_eq_getElem?_getD, List.getElem?_eq_getElem hn]
  rw [e1 _ hn1, e1 _ hn2, exchange_getD h2 n, exchange_getD h1, exchange_getD h1,
    exchange_getD h1 n]
  by_cases hnb : n = b.toNat
  · subst hnb
    simp only [if_true]
    by_cases hab : a.toNat = b.toNat
    · simp [hab]
    · simp [hab]
  · by_cases hna : n = a.toNat
    · subst hna
      simp [hnb]
    · simp [hnb, hna]

theorem C14_swap_involution_witness :
    ∃ o1, exchange [1, 0, 3, 2] 0 3 = .ok o1 ∧ exchange o1 0 3 = .ok [1, 0, 3, 2] :=
  C14_swap_involution [1, 0, 3, 2] 0 3 (by decide) (by decide) (by decide) (by decide)

/-- C16 is broken by the code: on a 3x1 grid (cols = 3, rows = 1, order [1, 0, 2]) and a
plane of one line with pitch 5, the tile loop stores to the bytes 0, 1 and 3 only.
Byte 2 lies between the tiles of block columns 1 and 2 and is left unwritten, and
byte 3, one of the last 5 mod 3 = 2 bytes of the line, is written.  The selection
highlight of the same function takes block column 1 to end at byte
(1+1)*5/3 - 1 = 2: with slot 1 selected it stores the border to byte 2, the byte the
tile loop skipped. -/
theorem C16_interior_gap :
    Render.plane ⟨3, 1, [1, 0, 2], -1, false, false⟩ 0 ⟨[1, 2, 3, 4, 5], 5, 1⟩
        ⟨[9, 9, 9, 9, 9], []⟩ = .ok ⟨[2, 1, 9, 4, 9], [3, 1, 0]⟩ ∧
      (2 : Int) ∉ ([3, 1, 0] : List Int) ∧ (3 : Int) ∈ ([3, 1, 0] : List Int) ∧
      (5 : Int) % 3 = 2 ∧ ¬ ((5 : Int) - 5 % 3 ≤ 2) ∧ (5 : Int) - 5 % 3 ≤ 3 ∧
      Render.highlight ⟨3, 1, [1, 0, 2], 1, false, false⟩ ⟨[1, 2, 3, 4, 5], 5, 1⟩
        ⟨[2, 1, 9, 4, 9], [3, 1, 0]⟩ = .ok ⟨[2, 255, 255, 4, 9], [1, 2, 1, 1, 3, 1, 0]⟩ := by
  decide

/-- C18: the click handler treats the last slot of a row and the first slot of the next
row as adjacent.  On every unsolved 4x4 grid (cached flag coherent) with slot 3 selected,
a click on slot 4 exchanges order[3] and order[4]; and with slot 4 selected a click on
slot 3 does the same; slot 3 is row 0, column 3 and slot 4 is row 1, column 0. -/
theorem C18_row_wraparound :
    (∀ (rand : Nat → Nat) (fuel : Nat) (w : vout_sys_t × Nat) (i_x i_y v_w v_h s p : Int),
      w.1.i_rows = 4 → w.1.i_cols = 4 → w.1.pi_order.length = 16 →
      finished w.1 = .ok w.1.b_finished → finished w.1 = .ok false →
      ((s = 3 ∧ p = 4) ∨ (s = 4 ∧ p = 3)) →
      w.1.i_selected = s → i_pos w.1 i_x i_y v_w v_h = .ok p →
      ∃ w', MouseEvent rand fuel w mouse_var.clicked i_x i_y v_w v_h = .ok w' ∧
        exchange w.1.pi_order s p = .ok w'.1.pi_order ∧
        w'.1.pi_order.getD 3 0 = w.1.pi_order.getD 4 0 ∧
        w'.1.pi_order.getD 4 0 = w.1.pi_order.getD 3 0 ∧
        ∀ j : Nat, j ≠ 3 → j ≠ 4 → w'.1.pi_order.getD j 0 = w.1.pi_order.getD j 0) ∧
    ((3 : Int) / 4 = 0 ∧ (3 : Int) % 4 = 3 ∧ (4 : Int) / 4 = 1 ∧ (4 : Int) % 4 = 0) := by
  refine ⟨?_, by decide⟩
  intro rand fuel w i_x i_y v_w v_h s p hr hc hlen hcoh hun hsp hsel hp
  have hfin : w.1.b_finished = false := by
    rw [hun] at hcoh; simpa using hcoh.symm
  have hs34 : (s = 3 ∨ s = 4) ∧ (p = 3 ∨ p = 4) ∧ s ≠ p := by omega
  obtain ⟨order, b, hex, -, -, hme⟩ := mouseEvent_swap_result rand fuel w i_x i_y v_w v_h p
    hp hfin (by rw [hsel]; omega) (fun h => hs34.2.2 (by rw [← hsel]; exact h.1))
    (by unfold adjacent; rw [hsel, hc]; omega)
    (by rw [hlen, hr, hc]; rfl) (by rw [hsel]; omega) (by rw [hsel, hlen]; omega)
    (by omega) (by rw [hlen]; omega)
  rw [hsel] at hex
  refine ⟨_, hme, hex, ?_, ?_, ?_⟩
  · show order.getD 3 0 = _
    rw [exchange_getD hex]
    rcases hsp with ⟨rfl, rfl⟩ | ⟨rfl, rfl⟩ <;> rfl
  · show order.getD 4 0 = _
    rw [exchange_getD hex]
    rcases hsp with ⟨rfl, rfl⟩ | ⟨rfl, rfl⟩ <;> rfl
  · intro j hj3 hj4
    show order.getD j 0 = _
    rw [exchange_getD hex]
    rcases hsp with ⟨rfl, rfl⟩ | ⟨rfl, rfl⟩
    · have e4 : (4 : Int).toNat = 4 := rfl
      have e3 : (3 : Int).toNat = 3 := rfl
      rw [e4, e3, if_neg hj4, if_neg hj3]
    · have e4 : (4 : Int).toNat = 4 := rfl
      have e3 : (3 : Int).toNat = 3 := rfl
      rw [e4, e3, if_neg hj3, if_neg hj4]

theorem C18_row_wraparound_witness :
    ∃ w', MouseEvent demoRand 0 (⟨4, 4, demoOrder16, 3, false, false⟩, 0) mouse_var.clicked
        0 1 4 4 = .ok w' ∧
      exchange demoOrder16 3 4 = .ok w'.1.pi_order ∧
      w'.1.pi_order.getD 3 0 = demoOrder16.getD 4 0 ∧
      w'.1.pi_order.getD 4 0 = demoOrder16.getD 3 0 ∧
      ∀ j : Nat, j ≠ 3 → j ≠ 4 → w'.1.pi_order.getD j 0 = demoOrder16.getD j 0 :=
  C18_row_wraparound.1 demoRand 0 (⟨4, 4, demoOrder16, 3, false, false⟩, 0) 0 1 4 4 3 4
    rfl rfl rfl rfl rfl (Or.inl ⟨rfl, rfl⟩) rfl rfl

/-- C19: on a 1x1 grid every pass of the do-while body of shuffle (given any budget)
leaves order = [0] after one draw, finished() reports it solved, and so shuffle, and
with it Create, never returns: for every random stream, every start position in it and
every step budget the run ends by exhausting the budget. -/
theorem C19_one_by_one_never_returns :
    (∀ (rand : Nat → Nat) (fuel seed : Nat),
      shuffle.place rand 1 (fuel + 1) (List.replicate (1 : Int).toNat (-1)) 0 seed
        = .ok ([0], seed + 1)) ∧
    (∀ s : vout_sys_t, s.i_rows = 1 → s.i_cols = 1 →
      finished { s with pi_order := [0] } = .ok true) ∧
    (∀ (rand : Nat → Nat) (fuel : Nat) (s : vout_sys_t) (seed : Nat),
      s.i_rows = 1 → s.i_cols = 1 → shuffle rand fuel s seed = .error .outOfFuel) ∧
    (∀ (rand : Nat → Nat) (fuel : Nat) (blackslot : Bool) (sel0 : Int) (fin0 : Bool)
        (seed : Nat),
      Create rand fuel 1 1 blackslot sel0 fin0 seed = .error .outOfFuel) := by
  have hsh : ∀ (rand : Nat → Nat) (fuel : Nat) (s : vout_sys_t) (seed : Nat),
      s.i_rows = 1 → s.i_cols = 1 → shuffle rand fuel s seed = .error .outOfFuel := by
    intro rand fuel s seed hr hc
    unfold shuffle
    rw [rounds_one_by_one rand s hr hc]
  refine ⟨fun rand fuel seed => place_one_by_one rand fuel seed, ?_, hsh, ?_⟩
  · intro s hr hc
    unfold finished
    have hn : s.i_cols * s.i_rows = 1 := by rw [hr, hc]; rfl
    simp only [hn]
    rfl
  · intro rand fuel blackslot sel0 fin0 seed
    exact hsh rand fuel _ seed rfl rfl

theorem C19_one_by_one_never_returns_witness :
    shuffle demoRand 1000 ⟨1, 1, [], -1, false, false⟩ 0 = .error .outOfFuel :=
  C19_one_by_one_never_returns.2.2.1 demoRand 1000 ⟨1, 1, [], -1, false, false⟩ 0 rfl rfl

end Puzzle
